import Mathlib

/-!
Verification of the tf-go variable compiler
(`internal/terraform/variables.go`).

This file gives a shallow embedding of the variable-compiler subsystem:
the tfvars definition-file parser (`parseTfvarsFile`, `parseListValue`,
`parseMapValue`), the schema parser (`parseVariablesTf`,
`extractOptionalDefaults`), the merge engine (`CompileVariables`) and the
serializer (`generateCompiledTfvars`, `formatVariable`), together with
theorems settling the specification claims about them.

Modelling conventions:
* Go strings are Lean `String`s; line scanning works over `List Char`.
* Go `map[string]T` values are association lists with unique keys; the
  list order stands for the (nondeterministic) iteration order a Go map
  exhibits in one run, so two extensionally equal Go maps are modelled by
  two association lists that are permutations of each other.
* Go `float64` values produced by `strconv.ParseFloat` on the decimal
  literals of this grammar are modelled exactly as normalized decimals
  `mant * 10 ^ (-exp)` (`GoFloat`); no claim depends on binary rounding.
* Go `int` values produced by `strconv.Atoi` are modelled as `Int`
  (no claim exercises 64-bit overflow).
* Go's regular-expression searches are hand-compiled to equivalent
  leftmost-first matchers on the concrete patterns the source uses.
* File-system access is a partial map `String → Option String` from path
  to content; `os.Stat` failing with not-exist is `none`.
-/

/-- Go regexp `\w`: ASCII letters, digits and underscore. -/
def isWordChar (c : Char) : Bool :=
  (('a' ≤ c && c ≤ 'z') || ('A' ≤ c && c ≤ 'Z') || ('0' ≤ c && c ≤ '9') || c = '_')

/-- Go regexp `\s`: `[ \t\n\f\r]`. -/
def isRegexSpace (c : Char) : Bool :=
  (c = ' ' || c = '\t' || c = '\n' || c = '\x0c' || c = '\r')

/-- Whitespace trimmed by Go `strings.TrimSpace` (ASCII part). -/
def isSpaceChar (c : Char) : Bool :=
  (c = ' ' || c = '\t' || c = '\n' || c = '\x0b' || c = '\x0c' || c = '\r')

def isDigitChar (c : Char) : Bool := ('0' ≤ c && c ≤ '9')

/-- Drop trailing characters satisfying `p`. -/
def dropTrailing (p : Char → Bool) (cs : List Char) : List Char :=
  (cs.reverse.dropWhile p).reverse

/-- Go `strings.Trim`-style two-sided trim with character predicate `p`. -/
def trimChars (p : Char → Bool) (cs : List Char) : List Char :=
  dropTrailing p (cs.dropWhile p)

/-- Go `strings.TrimSpace`. -/
def goTrimSpace (s : String) : String := ⟨trimChars isSpaceChar s.data⟩

/-- `startsWithLit pat cs` : `cs` begins with the literal `pat`. -/
def startsWithLit : List Char → List Char → Bool
  | [], _ => true
  | _ :: _, [] => false
  | p :: ps, c :: cs => p = c && startsWithLit ps cs

/-- Drop a literal from the front, or fail. -/
def dropLit (pat cs : List Char) : Option (List Char) :=
  if startsWithLit pat cs then some (cs.drop pat.length) else none

def containsChar (c : Char) (cs : List Char) : Bool := cs.any (fun d => d = c)

/-- Index of the first occurrence of literal `pat` in `cs`
(Go `strings.Index`), as `Option`. -/
def indexOfLit (pat : List Char) : List Char → Option Nat
  | [] => if pat.isEmpty then some 0 else none
  | c :: cs =>
      if startsWithLit pat (c :: cs) then some 0
      else (indexOfLit pat cs).map (· + 1)

/-- Does literal `pat` occur in `cs` (Go `strings.Contains`)? -/
def containsLit (pat cs : List Char) : Bool := (indexOfLit pat cs).isSome

/-- Go `strings.Split` on a single character. -/
def splitOnChar (c : Char) : List Char → List (List Char)
  | [] => [[]]
  | x :: xs =>
      let r := splitOnChar c xs
      if x = c then [] :: r
      else
        match r with
        | h :: t => (x :: h) :: t
        | [] => [[x]]

/-- Join chunks with a single separator character. -/
def joinWithChar (c : Char) : List (List Char) → List Char
  | [] => []
  | [x] => x
  | x :: xs => x ++ c :: joinWithChar c xs

/-- Everything after the first occurrence of `c` (empty if absent). -/
def afterFirstChar (c : Char) (cs : List Char) : List Char :=
  (cs.dropWhile (fun d => ¬ d = c)).drop 1

/-- Everything strictly before the last occurrence of `c`
(empty if absent). -/
def beforeLastChar (c : Char) (cs : List Char) : List Char :=
  ((cs.reverse.dropWhile (fun d => ¬ d = c)).drop 1).reverse

/-- The Go slice `line[strings.Index(line,o)+1 : strings.LastIndex(line,c)]`
used for single-line list and map literals. -/
def sliceBetween (o c : Char) (s : String) : String :=
  ⟨beforeLastChar c (afterFirstChar o s.data)⟩

def digitsToNat (ds : List Char) : Nat :=
  ds.foldl (fun a c => a * 10 + (c.toNat - 48)) 0

def digitChar (n : Nat) : Char := Char.ofNat (48 + n)

def natDigitsAux : Nat → Nat → List Char
  | 0, _ => []
  | f + 1, n => if n < 10 then [digitChar n] else natDigitsAux f (n / 10) ++ [digitChar (n % 10)]

/-- Decimal rendering of a natural number. -/
def natToStr (n : Nat) : String := ⟨natDigitsAux (n + 1) n⟩

/-- Decimal rendering of an integer (Go `%d` / `%v` on integers). -/
def intToStr (n : Int) : String :=
  if n < 0 then "-" ++ natToStr n.natAbs else natToStr n.natAbs

/-- A Go `float64` arising from `strconv.ParseFloat` on the decimal
literals of this grammar, modelled exactly as the normalized decimal
`mant / 10 ^ exp` (when `exp > 0`, `mant` is not divisible by 10, so equal
floats have equal representations). -/
structure GoFloat where
  mant : Int
  exp : Nat
deriving DecidableEq

/-- Remove factors of ten shared between mantissa and exponent
(first argument is fuel). -/
def stripTens : Nat → Nat → Nat → Nat × Nat
  | 0, m, e => (m, e)
  | _ + 1, m, 0 => (m, 0)
  | f + 1, m, e + 1 => if m % 10 = 0 then stripTens f (m / 10) e else (m, e + 1)

/-- Build a normalized `GoFloat` from sign, magnitude and decimal exponent. -/
def mkFloat (neg : Bool) (mag e : Nat) : GoFloat :=
  let p := stripTens e mag e
  { mant := if neg then -(p.1 : Int) else (p.1 : Int), exp := p.2 }

/-- `strconv.ParseFloat` on text matched by `\d+(\.\d+)?`
(integer part digits, fractional part digits). -/
def floatOfDigits (ds fs : List Char) : GoFloat :=
  mkFloat false (digitsToNat ds * 10 ^ fs.length + digitsToNat fs) fs.length

/-- `strconv.Atoi`: optional sign followed by one or more digits
(64-bit overflow is not modelled; no claim exercises it). -/
def goAtoi (s : String) : Option Int :=
  match s.data with
  | '-' :: ds => if ds ≠ [] && ds.all isDigitChar then some (-(digitsToNat ds : Int)) else none
  | '+' :: ds => if ds ≠ [] && ds.all isDigitChar then some (digitsToNat ds : Int) else none
  | ds => if ds ≠ [] && ds.all isDigitChar then some (digitsToNat ds : Int) else none

/-- `strconv.ParseFloat` on plain decimal text `[+-]?\d+(\.\d+)?`
(the only shape the schema parser ever feeds it; exponent and special
forms are not modelled, so they conservatively fail). -/
def goParseFloat (s : String) : Option GoFloat :=
  let core : List Char → Bool → Option GoFloat := fun cs neg =>
    let ds := cs.takeWhile isDigitChar
    let r := cs.dropWhile isDigitChar
    if ds.isEmpty then none
    else
      match r with
      | [] => some (mkFloat neg (digitsToNat ds) 0)
      | '.' :: fs =>
          if fs ≠ [] && fs.all isDigitChar then
            some (mkFloat neg (digitsToNat ds * 10 ^ fs.length + digitsToNat fs) fs.length)
          else none
      | _ => none
  match s.data with
  | '-' :: cs => core cs true
  | '+' :: cs => core cs false
  | cs => core cs false

/-- Go `%v` / `%g` rendering of a `GoFloat` (integral values print with no
fractional part; exponent notation for extreme magnitudes is not modelled,
no claim exercises it). -/
def floatToStr (f : GoFloat) : String :=
  if f.exp = 0 then intToStr f.mant
  else
    let mag := natDigitsAux (f.mant.natAbs + 1) f.mant.natAbs
    let padded := List.replicate (f.exp + 1 - mag.length) '0' ++ mag
    let ip := padded.take (padded.length - f.exp)
    let fp := padded.drop (padded.length - f.exp)
    (if f.mant < 0 then "-" else "") ++ ⟨ip⟩ ++ "." ++ ⟨fp⟩

/-- A parsed value (the `interface{}` payload of `TerraformVariable.Value`):
Go `string`, `float64`, `int`, `bool`, `[]interface{}`, or
`map[string]interface{}` (association list; see header on map order). -/
inductive GoVal where
  | str (s : String)
  | numv (f : GoFloat)
  | intv (n : Int)
  | boolv (b : Bool)
  | listv (xs : List GoVal)
  | mapv (m : List (String × GoVal))

/-- Does the Go type assertion `Value.(map[string]interface{})` succeed? -/
def GoVal.isMap : GoVal → Bool
  | .mapv _ => true
  | _ => false

mutual

/-- Structural (Go `==` / `reflect.DeepEqual`-style) equality on values. -/
def valBEq : GoVal → GoVal → Bool
  | .str a, .str b => a = b
  | .numv a, .numv b => a = b
  | .intv a, .intv b => a = b
  | .boolv a, .boolv b => a = b
  | .listv xs, .listv ys => listValBEq xs ys
  | .mapv m1, .mapv m2 => entriesBEq m1 m2
  | _, _ => false

def listValBEq : List GoVal → List GoVal → Bool
  | [], [] => true
  | x :: xs, y :: ys => valBEq x y && listValBEq xs ys
  | _, _ => false

def entriesBEq : List (String × GoVal) → List (String × GoVal) → Bool
  | [], [] => true
  | (k, v) :: xs, (l, w) :: ys => k = l && valBEq v w && entriesBEq xs ys
  | _, _ => false

end

/-- The Go struct `TerraformVariable`. -/
structure TfVar where
  name : String
  value : GoVal
  type : String

def tfVarBEq (a b : TfVar) : Bool :=
  a.name = b.name && valBEq a.value b.value && a.type = b.type

/-- Association-list lookup (the read `m[k]`, as `Option`). -/
def alGet {α : Type} (m : List (String × α)) (k : String) : Option α :=
  match m with
  | [] => none
  | (k', v) :: r => if k' = k then some v else alGet r k

/-- Association-list write (the Go map assignment `m[k] = v`): replaces the
existing binding in place, else appends. -/
def alSet {α : Type} (m : List (String × α)) (k : String) (v : α) : List (String × α) :=
  match m with
  | [] => [(k, v)]
  | (k', v') :: r => if k' = k then (k, v) :: r else (k', v') :: alSet r k v

def alKeys {α : Type} (m : List (String × α)) : List String := m.map Prod.fst

/-- Remove the first element satisfying `p`, reporting the remainder. -/
def removeOne {α : Type} (p : α → Bool) : List α → Option (List α)
  | [] => none
  | x :: xs => if p x then some xs else (removeOne p xs).map (fun r => x :: r)

/-- Multiset (permutation) check up to the element test `beq`. -/
def permByBEq {α : Type} (beq : α → α → Bool) : List α → List α → Bool
  | [], ys => ys.isEmpty
  | x :: xs, ys =>
      match removeOne (beq x) ys with
      | some ys' => permByBEq beq xs ys'
      | none => false

/-- Equivalence of two values as observed through Go semantics: map
payloads are unordered (their association lists may be permuted), all
other payloads compare structurally. -/
def valEquivb (a b : GoVal) : Bool :=
  match a, b with
  | .mapv m1, .mapv m2 =>
      permByBEq (fun x y => x.1 = y.1 && valBEq x.2 y.2) m1 m2
  | _, _ => valBEq a b

def tfVarEquivb (a b : TfVar) : Bool :=
  a.name = b.name && valEquivb a.value b.value && a.type = b.type

/-- Two compilation sets describe the same Go state: same key multiset and
Go-equivalent variable per key. -/
def setEquivb (s1 s2 : List (String × TfVar)) : Bool :=
  permByBEq (fun a b => a = b) (alKeys s1) (alKeys s2) &&
  (alKeys s1).all (fun k =>
    match alGet s1 k, alGet s2 k with
    | some a, some b => tfVarEquivb a b
    | _, _ => false)

/-- Shared front of the tfvars line patterns: `^(\w+)\s*=\s*` — the
identifier and the rest of the line after the equals sign and spaces. -/
def matchIdentEq (cs : List Char) : Option (List Char × List Char) :=
  let id := cs.takeWhile isWordChar
  if id.isEmpty then none
  else
    match (cs.dropWhile isWordChar).dropWhile isRegexSpace with
    | '=' :: r => some (id, r.dropWhile isRegexSpace)
    | _ => none

/-- `stringVarPattern = ^(\w+)\s*=\s*"([^"]*)"` : name and raw quoted text. -/
def matchStringVar (cs : List Char) : Option (String × String) :=
  match matchIdentEq cs with
  | some (id, '"' :: r2) =>
      let v := r2.takeWhile (fun d => ¬ d = '"')
      match r2.dropWhile (fun d => ¬ d = '"') with
      | '"' :: _ => some (⟨id⟩, ⟨v⟩)
      | _ => none
  | _ => none

/-- `numberVarPattern = ^(\w+)\s*=\s*(\d+(?:\.\d+)?)` followed by
`strconv.ParseFloat` of the captured text. -/
def matchNumberVar (cs : List Char) : Option (String × GoFloat) :=
  match matchIdentEq cs with
  | some (id, r) =>
      let ds := r.takeWhile isDigitChar
      if ds.isEmpty then none
      else
        match r.dropWhile isDigitChar with
        | '.' :: r3 =>
            let fs := r3.takeWhile isDigitChar
            if fs.isEmpty then some (⟨id⟩, floatOfDigits ds [])
            else some (⟨id⟩, floatOfDigits ds fs)
        | _ => some (⟨id⟩, floatOfDigits ds [])
  | none => none

/-- `boolVarPattern = ^(\w+)\s*=\s*(true|false)`. -/
def matchBoolVar (cs : List Char) : Option (String × Bool) :=
  match matchIdentEq cs with
  | some (id, r) =>
      if startsWithLit "true".data r then some (⟨id⟩, true)
      else if startsWithLit "false".data r then some (⟨id⟩, false)
      else none
  | none => none

/-- `listStartPattern = ^(\w+)\s*=\s*\[`. -/
def matchListStart (cs : List Char) : Option String :=
  match matchIdentEq cs with
  | some (id, '[' :: _) => some ⟨id⟩
  | _ => none

/-- `mapStartPattern = ^(\w+)\s*=\s*\{`. -/
def matchMapStart (cs : List Char) : Option String :=
  match matchIdentEq cs with
  | some (id, '\x7b' :: _) => some ⟨id⟩
  | _ => none

def squote : Char := Char.ofNat 39

def isQuoteChar (c : Char) : Bool := (c = squote || c = '"')

/-- Try the ERB pattern `<%=\s*expansion\(['"]([^'"]+)['"]\)\s*%>` at the
current position, returning the captured token. -/
def erbMatchHere (cs : List Char) : Option String := do
  let r1 ← dropLit "<%=".data cs
  let r2 ← dropLit "expansion(".data (r1.dropWhile isRegexSpace)
  match r2 with
  | q :: r3 =>
      if isQuoteChar q then
        let tok := r3.takeWhile (fun d => ¬ isQuoteChar d)
        if tok.isEmpty then none
        else
          match r3.dropWhile (fun d => ¬ isQuoteChar d) with
          | q2 :: ')' :: r4 =>
              if isQuoteChar q2 then
                match (r4.dropWhile isRegexSpace) with
                | '%' :: '>' :: _ => some ⟨tok⟩
                | _ => none
              else none
          | _ => none
      else none
  | [] => none

/-- Leftmost match of the ERB pattern (Go `FindStringSubmatch`). -/
def erbFind : List Char → Option String
  | [] => none
  | c :: cs =>
      match erbMatchHere (c :: cs) with
      | some t => some t
      | none => erbFind cs

/-- `constants.DefaultEnvironment`. -/
def DefaultEnvironment : String := "usgw1-dev-devops"

/-- The parse-time placeholder expansion applied to a string value: the one
defined token `:ENV` maps to `DefaultEnvironment`; any other token (or no
placeholder at all) leaves the original text unchanged. -/
def expandErb (v : String) : String :=
  match erbFind v.data with
  | some t => if t = ":ENV" then DefaultEnvironment else v
  | none => v

/-- `parseListValue`: split the buffered text on commas, trim whitespace
then quotes from each item, drop empty items; every element is a Go
string. -/
def parseListValue (content : String) : List GoVal :=
  let c := trimChars isSpaceChar content.data
  if c.isEmpty then []
  else
    (splitOnChar ',' c).filterMap fun item =>
      let it := trimChars (fun d => d = '"') (trimChars isSpaceChar item)
      if it.isEmpty then none else some (.str ⟨it⟩)

/-- One `key = value` line inside a map literal: patterns tried in source
order string, bool, number. -/
def parseMapLine (m : List (String × GoVal)) (rawLine : List Char) : List (String × GoVal) :=
  let line := trimChars isSpaceChar rawLine
  if line.isEmpty || startsWithLit "#".data line then m
  else
    match matchStringVar line with
    | some (k, v) => alSet m k (.str v)
    | none =>
        match matchBoolVar line with
        | some (k, b) => alSet m k (.boolv b)
        | none =>
            match matchNumberVar line with
            | some (k, f) => alSet m k (.numv f)
            | none => m

/-- `parseMapValue`: strip outer braces, then parse each line as a
`key = value` pair. -/
def parseMapValue (content : String) : List (String × GoVal) :=
  let c0 := trimChars isSpaceChar content.data
  let c1 := match dropLit "\x7b".data c0 with | some r => r | none => c0
  let c2 := if startsWithLit "\x7d".data c1.reverse then c1.dropLast else c1
  let c := trimChars isSpaceChar c2
  if c.isEmpty then []
  else (splitOnChar '\n' c).foldl parseMapLine []

/-- `strings.Join(xs, "\n")`. -/
def joinNl (xs : List String) : String := ⟨joinWithChar '\n' (xs.map String.data)⟩

/-- The scanner state of `parseTfvarsFile`. -/
structure PState where
  vars : List (String × TfVar)
  inList : Bool
  curList : String
  listBuf : List String
  inMap : Bool
  curMap : String
  mapBuf : List String

def initPState : PState :=
  { vars := [], inList := false, curList := "", listBuf := [],
    inMap := false, curMap := "", mapBuf := [] }

/-- Store a parsed variable (`variables[name] = TerraformVariable{...}`). -/
def pSet (st : PState) (n : String) (v : GoVal) (ty : String) : PState :=
  { st with vars := alSet st.vars n ⟨n, v, ty⟩ }

/-- One iteration of the `parseTfvarsFile` scanner loop on a raw line. -/
def stepLine (st : PState) (raw : String) : PState :=
  let line := goTrimSpace raw
  if line = "" || startsWithLit "#".data line.data || startsWithLit "//".data line.data then st
  else if st.inList then
    if containsChar ']' line.data then
      pSet { st with inList := false, curList := "", listBuf := [] }
        st.curList (.listv (parseListValue (joinNl (st.listBuf ++ [line])))) "list"
    else { st with listBuf := st.listBuf ++ [line] }
  else if st.inMap then
    if containsChar '\x7d' line.data then
      pSet { st with inMap := false, curMap := "", mapBuf := [] }
        st.curMap (.mapv (parseMapValue (joinNl (st.mapBuf ++ [line])))) "map"
    else { st with mapBuf := st.mapBuf ++ [line] }
  else
    match matchStringVar line.data with
    | some (n, v) => pSet st n (.str (expandErb v)) "string"
    | none =>
        match matchNumberVar line.data with
        | some (n, f) => pSet st n (.numv f) "number"
        | none =>
            match matchBoolVar line.data with
            | some (n, b) => pSet st n (.boolv b) "bool"
            | none =>
                match matchListStart line.data with
                | some n =>
                    if containsChar ']' line.data then
                      pSet st n (.listv (parseListValue (sliceBetween '[' ']' line))) "list"
                    else { st with inList := true, curList := n, listBuf := [line] }
                | none =>
                    match matchMapStart line.data with
                    | some n =>
                        if containsChar '\x7d' line.data then
                          pSet st n (.mapv (parseMapValue (sliceBetween '\x7b' '\x7d' line))) "map"
                        else { st with inMap := true, curMap := n, mapBuf := [line] }
                    | none => st

/-- Split file content into scanner lines (`bufio.Scanner` with the default
line splitter; a trailing `\r` is removed by the subsequent `TrimSpace`). -/
def fileLines (content : String) : List String :=
  (splitOnChar '\n' content.data).map (fun l => (⟨l⟩ : String))

/-- `parseTfvarsFile` on in-memory content: fold the scanner over the
lines.  Its only error paths in the source are I/O failures (`os.Open`,
`scanner.Err`), which in-memory content cannot exhibit, so the model is
total. -/
def parseTfvars (content : String) : List (String × TfVar) :=
  ((fileLines content).foldl stepLine initPState).vars

/-- The shallow map merge of `CompileVariables`: start empty, copy the
existing entries, then overwrite with the new entries. -/
def mergeMaps (em nm : List (String × GoVal)) : List (String × GoVal) :=
  nm.foldl (fun acc kv => alSet acc kv.1 kv.2)
    (em.foldl (fun acc kv => alSet acc kv.1 kv.2) [])

/-- The merge of one parsed variable into the accumulated compilation set
(the body of the `for name, variable := range variables` loop in
`CompileVariables`): merge when both payloads are maps, replace
otherwise. -/
def mergeStep (acc : List (String × TfVar)) (nv : String × TfVar) : List (String × TfVar) :=
  match alGet acc nv.1 with
  | some ex =>
      match ex.value, nv.2.value with
      | .mapv em, .mapv nm => alSet acc nv.1 ⟨nv.1, .mapv (mergeMaps em nm), "map"⟩
      | _, _ => alSet acc nv.1 nv.2
  | none => alSet acc nv.1 nv.2

/-- Merge one parsed source into the accumulated set. -/
def mergeInto (acc : List (String × TfVar)) (fileVars : List (String × TfVar)) :
    List (String × TfVar) :=
  fileVars.foldl mergeStep acc

/-- Fold an ordered sequence of parsed sources through the merge engine. -/
def compileMerge (srcs : List (List (String × TfVar))) : List (String × TfVar) :=
  srcs.foldl mergeInto []

/-- `strings.Join`. -/
def joinSep (sep : String) : List String → String
  | [] => ""
  | [x] => x
  | x :: xs => x ++ sep ++ joinSep sep xs

mutual

/-- Go `fmt` `%v` rendering of a value (for composite values this is the
`[a b]` / `map[k:v]` shape; the serializer only reaches it on scalars and
on the mismatched-payload fallback branches). -/
def goFmtValue : GoVal → String
  | .str s => s
  | .boolv b => if b then "true" else "false"
  | .numv f => floatToStr f
  | .intv n => intToStr n
  | .listv xs => "[" ++ goFmtList xs ++ "]"
  | .mapv m => "map[" ++ goFmtEntries m ++ "]"

def goFmtList : List GoVal → String
  | [] => ""
  | [x] => goFmtValue x
  | x :: xs => goFmtValue x ++ " " ++ goFmtList xs

def goFmtEntries : List (String × GoVal) → String
  | [] => ""
  | [(k, v)] => k ++ ":" ++ goFmtValue v
  | (k, v) :: r => k ++ ":" ++ goFmtValue v ++ " " ++ goFmtEntries r

end

/-- One `  k = v` line of a serialized map variable (`formatVariable`,
`case "map"`): strings quoted, bools bare, integral floats as integers,
other floats in general format, anything else (notably Go `int`s coming
from schema `optional` defaults) through `"%v"`, i.e. quoted. -/
def formatMapItem (kv : String × GoVal) : String :=
  match kv.2 with
  | .str s => "  " ++ kv.1 ++ " = \"" ++ s ++ "\""
  | .boolv b => "  " ++ kv.1 ++ " = " ++ (if b then "true" else "false")
  | .numv f =>
      if f.exp = 0 then "  " ++ kv.1 ++ " = " ++ intToStr f.mant
      else "  " ++ kv.1 ++ " = " ++ floatToStr f
  | v => "  " ++ kv.1 ++ " = \"" ++ goFmtValue v ++ "\""

/-- `formatVariable`: render one variable in tfvars syntax, dispatching on
its type tag.  A map variable's lines follow the association-list order,
which models one arbitrary Go map iteration order. -/
def formatVariable (v : TfVar) : String :=
  match v.type with
  | "string" => v.name ++ " = \"" ++ goFmtValue v.value ++ "\""
  | "number" => v.name ++ " = " ++ goFmtValue v.value
  | "bool" => v.name ++ " = " ++ goFmtValue v.value
  | "list" =>
      match v.value with
      | .listv xs =>
          v.name ++ " = [" ++ joinSep ", " (xs.map (fun x => "\"" ++ goFmtValue x ++ "\"")) ++ "]"
      | _ => v.name ++ " = []"
  | "map" =>
      match v.value with
      | .mapv m => v.name ++ " = \x7b\n" ++ joinSep "\n" (m.map formatMapItem) ++ "\n\x7d"
      | _ => v.name ++ " = \x7b\x7d"
  | _ => v.name ++ " = \"" ++ goFmtValue v.value ++ "\""

/-- One inner pass of the simple sort in `generateCompiledTfvars`
(`for j := i+1 ...: if names[i] > names[j] swap`): threads the current
`names[i]` through the tail, returning the final `names[i]` and the
updated tail. -/
def exchPass (x : String) : List String → String × List String
  | [] => (x, [])
  | y :: ys =>
      if y < x then
        let p := exchPass y ys
        (p.1, x :: p.2)
      else
        let p := exchPass x ys
        (p.1, y :: p.2)

/-- The full double-loop exchange sort (fuel is the list length). -/
def exchSortFuel : Nat → List String → List String
  | 0, l => l
  | _ + 1, [] => []
  | f + 1, x :: xs =>
      let p := exchPass x xs
      p.1 :: exchSortFuel f p.2

/-- The name sort used by `generateCompiledTfvars`. -/
def exchSort (l : List String) : List String := exchSortFuel l.length l

def tfvarsHeaderStr : String :=
  "# Compiled variables from multiple tfvars files\n# Generated by tf-go variable compiler\n\n"

/-- `generateCompiledTfvars`: header, then each variable in sorted name
order followed by a newline.  The lookup cannot miss since the names are
the set's keys; the miss branch mirrors formatting Go's zero
`TerraformVariable`. -/
def generateCompiledTfvars (vars : List (String × TfVar)) : String :=
  tfvarsHeaderStr ++
    String.join ((exchSort (alKeys vars)).map (fun n =>
      match alGet vars n with
      | some v => formatVariable v ++ "\n"
      | none => " = \"<nil>\"\n"))

/-- The file system visible to one run: path to content, `none` for a path
on which `os.Stat` reports not-exist. -/
def FileSys : Type := String → Option String

/-- `parseTfvarsFile` with the source's error channel: its only error
paths are I/O failures, which in-memory content cannot exhibit. -/
def parseTfvarsE (content : String) : Except String (List (String × TfVar)) :=
  .ok (parseTfvars content)

/-- `CompileVariables`: skip missing files with a warning, parse and merge
the rest in order, serialize the final set. -/
def CompileVariables (fs : FileSys) (paths : List String) : Except String String :=
  (paths.foldlM (fun acc p =>
      match fs p with
      | none => pure acc
      | some c => do
          let vars ← parseTfvarsE c
          pure (mergeInto acc vars)) []).map generateCompiledTfvars

def countChar (c : Char) (cs : List Char) : Nat := cs.countP (fun d => d = c)

/-- Try `variable\s+"([^"]+)"` at the current position. -/
def matchVarNameHere (cs : List Char) : Option String := do
  let r1 ← dropLit "variable".data cs
  match r1 with
  | c :: r2 =>
      if isRegexSpace c then
        match r2.dropWhile isRegexSpace with
        | '"' :: r3 =>
            let nm := r3.takeWhile (fun d => ¬ d = '"')
            if nm.isEmpty then none
            else
              match r3.dropWhile (fun d => ¬ d = '"') with
              | '"' :: _ => some ⟨nm⟩
              | _ => none
        | _ => none
      else none
  | [] => none

/-- Leftmost match of `variable\s+"([^"]+)"`. -/
def findVarName : List Char → Option String
  | [] => none
  | c :: cs =>
      match matchVarNameHere (c :: cs) with
      | some t => some t
      | none => findVarName cs

/-- Try `default\s*=\s*"([^"]*)"` at the current position. -/
def matchDefaultStringHere (cs : List Char) : Option String := do
  let r1 ← dropLit "default".data cs
  match r1.dropWhile isRegexSpace with
  | '=' :: r2 =>
      match r2.dropWhile isRegexSpace with
      | '"' :: r3 =>
          let v := r3.takeWhile (fun d => ¬ d = '"')
          match r3.dropWhile (fun d => ¬ d = '"') with
          | '"' :: _ => some ⟨v⟩
          | _ => none
      | _ => none
  | _ => none

/-- Leftmost match of `default\s*=\s*"([^"]*)"`. -/
def findDefaultString : List Char → Option String
  | [] => none
  | c :: cs =>
      match matchDefaultStringHere (c :: cs) with
      | some t => some t
      | none => findDefaultString cs

/-- Try `default\s*=\s*(true|false)` at the current position. -/
def matchDefaultBoolHere (cs : List Char) : Option Bool := do
  let r1 ← dropLit "default".data cs
  match r1.dropWhile isRegexSpace with
  | '=' :: r2 =>
      let r3 := r2.dropWhile isRegexSpace
      if startsWithLit "true".data r3 then some true
      else if startsWithLit "false".data r3 then some false
      else none
  | _ => none

/-- Leftmost match of `default\s*=\s*(true|false)`. -/
def findDefaultBool : List Char → Option Bool
  | [] => none
  | c :: cs =>
      match matchDefaultBoolHere (c :: cs) with
      | some t => some t
      | none => findDefaultBool cs

/-- Try `(\w+)\s*=\s*optional\(` at the current position. -/
def matchFieldHere (cs : List Char) : Option String :=
  let id := cs.takeWhile isWordChar
  if id.isEmpty then none
  else
    match (cs.dropWhile isWordChar).dropWhile isRegexSpace with
    | '=' :: r =>
        if startsWithLit "optional(".data (r.dropWhile isRegexSpace) then some ⟨id⟩ else none
    | _ => none

/-- Leftmost match of `(\w+)\s*=\s*optional\(` (the field name). -/
def findFieldName : List Char → Option String
  | [] => none
  | c :: cs =>
      match matchFieldHere (c :: cs) with
      | some t => some t
      | none => findFieldName cs

/-- The character walk of `extractOptionalDefaults` that finds the second
argument of `optional(type, default)`: tracks parenthesis nesting, records
the position after the first top-level comma, stops at the top-level
closing parenthesis.  Arguments: remaining characters, current absolute
index, nesting depth, comma seen, recorded start.  Returns
`(commaFound, defaultStart, defaultEnd)`; `defaultEnd` stays 0 when no
top-level `)` is found, as in the source. -/
def optScanAux : List Char → Nat → Nat → Bool → Nat → Bool × Nat × Nat
  | [], _, _, cf, ds => (cf, ds, 0)
  | c :: cs, i, pc, cf, ds =>
      if c = '(' then optScanAux cs (i + 1) (pc + 1) cf ds
      else if c = ')' then
        if pc = 0 then (cf, ds, i) else optScanAux cs (i + 1) (pc - 1) cf ds
      else if c = ',' && pc = 0 && !cf then optScanAux cs (i + 1) pc true (i + 1)
      else optScanAux cs (i + 1) pc cf ds

/-- The Go slice `line[a:b]` (total model; the source can only reach a
degenerate range from malformed input no claim exercises). -/
def lineSlice (cs : List Char) (a b : Nat) : List Char := (cs.drop a).take (b - a)

/-- `^\d+\.\d+$`. -/
def isFloatLit (cs : List Char) : Bool :=
  let ds := cs.takeWhile isDigitChar
  (!ds.isEmpty) &&
    (match cs.dropWhile isDigitChar with
     | '.' :: fs => (!fs.isEmpty) && fs.all isDigitChar
     | _ => false)

/-- Typing of an `optional(type, default)` default text, in source
priority: bool, quoted string, integer (`^\d+$` via `Atoi`), float
(`^\d+\.\d+$` via `ParseFloat`); anything else contributes nothing. -/
def parseOptionalValue (s : String) : Option GoVal :=
  if s = "true" || s = "false" then some (.boolv (s = "true"))
  else if startsWithLit "\"".data s.data && startsWithLit "\"".data s.data.reverse then
    some (.str ⟨trimChars (fun d => d = '"') s.data⟩)
  else if (!s.data.isEmpty) && s.data.all isDigitChar then (goAtoi s).map .intv
  else if isFloatLit s.data then (goParseFloat s).map .numv
  else none

/-- The per-line work of `extractOptionalDefaults`: field name and typed
default of one `optional(...)` declaration, `none` when the line carries
no `optional(`, no field pattern, no top-level comma, or an untypable
default text. -/
def optionalLineDefault (rawLine : String) : Option (String × GoVal) :=
  let line := trimChars isSpaceChar rawLine.data
  if containsLit "optional(".data line then
    match findFieldName line with
    | none => none
    | some fname =>
        match indexOfLit "optional(".data line with
        | none => none
        | some oStart =>
            let r := optScanAux (line.drop (oStart + 9)) (oStart + 9) 0 false 0
            if r.1 then
              (parseOptionalValue ⟨trimChars isSpaceChar (lineSlice line r.2.1 r.2.2)⟩).map
                (fun v => (fname, v))
            else none
  else none

/-- `extractOptionalDefaults`: join the captured type block, re-split into
lines, collect each line's optional default. -/
def extractOptionalDefaults (typeContent : List String) : List (String × GoVal) :=
  (splitOnChar '\n' (joinNl typeContent).data).foldl
    (fun defs lcs =>
      match optionalLineDefault ⟨lcs⟩ with
      | some (k, v) => alSet defs k v
      | none => defs) []

/-- The typing of one `key = value` line of a multi-line `default` block
(`parseVariablesTf`, complex-default branch): quoted string, bool, text
with a dot through `ParseFloat` (kept verbatim on failure), integer via
`Atoi`, else quote-trimmed text. -/
def defaultLineValue (value : List Char) : GoVal :=
  if startsWithLit "\"".data value && startsWithLit "\"".data value.reverse then
    .str ⟨trimChars (fun d => d = '"') value⟩
  else if (⟨value⟩ : String) = "true" || (⟨value⟩ : String) = "false" then
    .boolv ((⟨value⟩ : String) = "true")
  else if containsChar '.' value then
    match goParseFloat ⟨value⟩ with
    | some f => .numv f
    | none => .str ⟨value⟩
  else
    match goAtoi ⟨value⟩ with
    | some i => .intv i
    | none => .str ⟨trimChars (fun d => d = '"') value⟩

/-- The simple map parsing of a buffered multi-line `default` block: every
line containing `=` but not `default` contributes a key/value pair split
at the first `=`. -/
def parseDefaultContentMap (defaultContent : List String) : List (String × GoVal) :=
  defaultContent.foldl
    (fun m dl =>
      if containsChar '=' dl.data && !containsLit "default".data dl.data then
        let t := trimChars isSpaceChar dl.data
        let key : String := ⟨trimChars isSpaceChar (t.takeWhile (fun d => ¬ d = '='))⟩
        let value := trimChars isSpaceChar ((t.dropWhile (fun d => ¬ d = '=')).drop 1)
        alSet m key (defaultLineValue value)
      else m) []

/-- The scanner state of `parseVariablesTf`. -/
structure SState where
  vars : List (String × TfVar)
  currentVar : String
  inVariable : Bool
  inDefault : Bool
  inType : Bool
  defaultContent : List String
  typeContent : List String
  braceCount : Int

def initSState : SState :=
  { vars := [], currentVar := "", inVariable := false, inDefault := false,
    inType := false, defaultContent := [], typeContent := [], braceCount := 0 }

def sSet (st : SState) (v : GoVal) (ty : String) : SState :=
  { st with vars := alSet st.vars st.currentVar ⟨st.currentVar, v, ty⟩ }

/-- One iteration of the `parseVariablesTf` scanner loop on a raw line. -/
def schemaStep (st : SState) (raw : String) : SState :=
  let line := goTrimSpace raw
  if line = "" || startsWithLit "#".data line.data || startsWithLit "//".data line.data then st
  else if startsWithLit "variable ".data line.data then
    match findVarName line.data with
    | some n => { st with currentVar := n, inVariable := true, braceCount := 0 }
    | none => st
  else if st.inVariable then
    let bc := st.braceCount + (countChar '\x7b' line.data : Int) - (countChar '\x7d' line.data : Int)
    let st1 := { st with braceCount := bc }
    if containsLit "default".data line.data && containsChar '=' line.data && !st1.inType then
      if containsLit "\x7b\x7d".data line.data then
        sSet { st1 with inDefault := false, defaultContent := [] } (.mapv []) "map"
      else if containsChar '"' line.data then
        match findDefaultString line.data with
        | some v => sSet { st1 with inDefault := false, defaultContent := [] } (.str v) "string"
        | none => { st1 with inDefault := true, defaultContent := [line] }
      else if containsLit "true".data line.data || containsLit "false".data line.data then
        match findDefaultBool line.data with
        | some b => sSet { st1 with inDefault := false, defaultContent := [] } (.boolv b) "bool"
        | none => { st1 with inDefault := true, defaultContent := [line] }
      else { st1 with inDefault := true, defaultContent := [line] }
    else if containsLit "type".data line.data && containsChar '=' line.data &&
        containsLit "object(".data line.data && !st1.inDefault then
      { st1 with inType := true, typeContent := [line] }
    else if st1.inDefault then
      let dc := st1.defaultContent ++ [line]
      if bc ≤ 1 && (containsChar '\x7d' line.data ||
          (!containsChar '\x7b' line.data && !containsChar '=' line.data)) then
        sSet { st1 with inDefault := false, defaultContent := dc }
          (.mapv (parseDefaultContentMap dc)) "map"
      else { st1 with defaultContent := dc }
    else if st1.inType then
      let tc := st1.typeContent ++ [line]
      if bc ≤ 1 && containsLit "\x7d)".data line.data then
        let defs := extractOptionalDefaults tc
        if defs.isEmpty then { st1 with inType := false, typeContent := tc }
        else sSet { st1 with inType := false, typeContent := tc } (.mapv defs) "map"
      else { st1 with typeContent := tc }
    else if line = "\x7d" && bc = 0 then
      { st1 with
        inVariable := false, inDefault := false, inType := false,
        currentVar := "", defaultContent := [], typeContent := [] }
    else st1
  else st

/-- `parseVariablesTf` on in-memory content (errors are I/O-only in the
source, so the model is total). -/
def parseVariablesTf (content : String) : List (String × TfVar) :=
  ((fileLines content).foldl schemaStep initSState).vars

/-- First-defined option (`new` over `existing` in merge statements). -/
def optOr {α : Type} (a b : Option α) : Option α :=
  match a with
  | some x => some x
  | none => b

/-- A name the tfvars grammar can read back: nonempty, all `\w`. -/
def isIdentStr (s : String) : Bool := (!s.data.isEmpty) && s.data.all isWordChar

/-- A list element that survives the flat list syntax: nonempty, free of
commas, double quotes and newlines. -/
def cleanListElem (s : String) : Bool :=
  (!s.data.isEmpty) && s.data.all (fun c => !(c = ',' || c = '"' || c = '\n'))

/-- An entry eligible for the list round trip: a list-typed variable of
clean string elements under its own name. -/
def cleanListEntry (e : String × TfVar) : Bool :=
  isIdentStr e.1 && e.2.name = e.1 && e.2.type = "list" &&
    (match e.2.value with
     | .listv xs =>
         xs.all (fun x =>
           match x with
           | .str s => cleanListElem s
           | _ => false)
     | _ => false)

/-- C8 as the spec words it: a list-typed variable whose string elements
are merely free of embedded commas and double quotes. -/
def noCommaQuoteEntry (e : String × TfVar) : Bool :=
  e.2.type = "list" &&
    (match e.2.value with
     | .listv xs => xs.all (fun x => match x with
         | .str s => s.data.all (fun c => !(c = ',' || c = '"'))
         | _ => false)
     | _ => false)

/-- Every map-typed payload of the set has at most one entry (the regime
in which Go's map iteration order cannot influence the serialized
bytes). -/
def smallMapsVar (v : TfVar) : Bool :=
  match v.value with
  | .mapv m => m.length ≤ 1
  | _ => true

/-- Unique keys, the invariant of every association list standing for a
Go map. -/
def nodupKeys {α : Type} (m : List (String × α)) : Prop := (alKeys m).Nodup

/-- A trimmed line matches none of the five recognized top-level value
forms. -/
def lineMatchesNone (t : String) : Bool :=
  (matchStringVar t.data).isNone && (matchNumberVar t.data).isNone &&
  (matchBoolVar t.data).isNone && (matchListStart t.data).isNone &&
  (matchMapStart t.data).isNone

mutual

theorem valBEq_sound : ∀ {a b : GoVal}, valBEq a b = true → a = b
  | .str _, .str _, h => by simp [valBEq] at h; simp [h]
  | .numv _, .numv _, h => by simp [valBEq] at h; simp [h]
  | .intv _, .intv _, h => by simp [valBEq] at h; simp [h]
  | .boolv _, .boolv _, h => by simp [valBEq] at h; simp [h]
  | .listv _, .listv _, h => by
      simp only [valBEq] at h
      simp [listValBEq_sound h]
  | .mapv _, .mapv _, h => by
      simp only [valBEq] at h
      simp [entriesBEq_sound h]
  | .str _, .numv _, h => by simp [valBEq] at h
  | .str _, .intv _, h => by simp [valBEq] at h
  | .str _, .boolv _, h => by simp [valBEq] at h
  | .str _, .listv _, h => by simp [valBEq] at h
  | .str _, .mapv _, h => by simp [valBEq] at h
  | .numv _, .str _, h => by simp [valBEq] at h
  | .numv _, .intv _, h => by simp [valBEq] at h
  | .numv _, .boolv _, h => by simp [valBEq] at h
  | .numv _, .listv _, h => by simp [valBEq] at h
  | .numv _, .mapv _, h => by simp [valBEq] at h
  | .intv _, .str _, h => by simp [valBEq] at h
  | .intv _, .numv _, h => by simp [valBEq] at h
  | .intv _, .boolv _, h => by simp [valBEq] at h
  | .intv _, .listv _, h => by simp [valBEq] at h
  | .intv _, .mapv _, h => by simp [valBEq] at h
  | .boolv _, .str _, h => by simp [valBEq] at h
  | .boolv _, .numv _, h => by simp [valBEq] at h
  | .boolv _, .intv _, h => by simp [valBEq] at h
  | .boolv _, .listv _, h => by simp [valBEq] at h
  | .boolv _, .mapv _, h => by simp [valBEq] at h
  | .listv _, .str _, h => by simp [valBEq] at h
  | .listv _, .numv _, h => by simp [valBEq] at h
  | .listv _, .intv _, h => by simp [valBEq] at h
  | .listv _, .boolv _, h => by simp [valBEq] at h
  | .listv _, .mapv _, h => by simp [valBEq] at h
  | .mapv _, .str _, h => by simp [valBEq] at h
  | .mapv _, .numv _, h => by simp [valBEq] at h
  | .mapv _, .intv _, h => by simp [valBEq] at h
  | .mapv _, .boolv _, h => by simp [valBEq] at h
  | .mapv _, .listv _, h => by simp [valBEq] at h

theorem listValBEq_sound : ∀ {xs ys : List GoVal}, listValBEq xs ys = true → xs = ys
  | [], [], _ => rfl
  | x :: xs, y :: ys, h => by
      simp only [listValBEq, Bool.and_eq_true] at h
      simp [valBEq_sound h.1, listValBEq_sound h.2]
  | [], _ :: _, h => by simp [listValBEq] at h
  | _ :: _, [], h => by simp [listValBEq] at h

theorem entriesBEq_sound : ∀ {xs ys : List (String × GoVal)}, entriesBEq xs ys = true → xs = ys
  | [], [], _ => rfl
  | (k, v) :: xs, (l, w) :: ys, h => by
      simp only [entriesBEq, Bool.and_eq_true] at h
      have hk : k = l := by exact_mod_cast decide_eq_true_eq.mp h.1.1
      simp [hk, valBEq_sound h.1.2, entriesBEq_sound h.2]
  | [], _ :: _, h => by simp [entriesBEq] at h
  | _ :: _, [], h => by simp [entriesBEq] at h

end

theorem tfVarBEq_sound {a b : TfVar} (h : tfVarBEq a b = true) : a = b := by
  obtain ⟨an, av, aty⟩ := a
  obtain ⟨bn, bv, bty⟩ := b
  simp only [tfVarBEq, Bool.and_eq_true, decide_eq_true_eq] at h
  obtain ⟨⟨h1, h2⟩, h3⟩ := h
  subst h1
  subst h3
  simp [valBEq_sound h2]

theorem alGet_alSet_self {α : Type} (m : List (String × α)) (k : String) (v : α) :
    alGet (alSet m k v) k = some v := by
  induction m with
  | nil => simp [alSet, alGet]
  | cons kv r ih =>
      obtain ⟨k', v'⟩ := kv
      by_cases h : k' = k
      · simp [alSet, alGet, h]
      · simp [alSet, alGet, h, ih]

theorem alGet_alSet_ne {α : Type} (m : List (String × α)) (k x : String) (v : α)
    (h : x ≠ k) : alGet (alSet m k v) x = alGet m x := by
  induction m with
  | nil => simp [alSet, alGet, Ne.symm h]
  | cons kv r ih =>
      obtain ⟨k', v'⟩ := kv
      by_cases hk : k' = k
      · subst hk
        simp [alSet, alGet, Ne.symm h]
      · simp [alSet, alGet, hk, ih]

theorem alGet_eq_none_iff {α : Type} (m : List (String × α)) (k : String) :
    alGet m k = none ↔ k ∉ alKeys m := by
  induction m with
  | nil => simp [alGet, alKeys]
  | cons kv r ih =>
      obtain ⟨k', v'⟩ := kv
      by_cases h : k' = k
      · subst h
        simp [alGet, alKeys]
      · simp [alGet, alKeys, h, Ne.symm h, ih]

theorem alGet_isSome_iff {α : Type} (m : List (String × α)) (k : String) :
    (alGet m k).isSome = true ↔ k ∈ alKeys m := by
  rw [← Decidable.not_iff_not, ← alGet_eq_none_iff]
  cases alGet m k <;> simp

theorem alKeys_alSet {α : Type} (m : List (String × α)) (k : String) (v : α) :
    alKeys (alSet m k v) = if k ∈ alKeys m then alKeys m else alKeys m ++ [k] := by
  induction m with
  | nil => simp [alSet, alKeys]
  | cons kv r ih =>
      obtain ⟨k', v'⟩ := kv
      by_cases h : k' = k
      · subst h
        simp [alSet, alKeys]
      · simp only [alSet, if_neg h, alKeys, List.map_cons]
        by_cases hm : k ∈ alKeys r
        · simp [alKeys] at hm ih ⊢
          simp [hm, Ne.symm h, ih]
        · simp [alKeys] at hm ih ⊢
          simp [hm, Ne.symm h, ih]

theorem nodupKeys_alSet {α : Type} (m : List (String × α)) (k : String) (v : α)
    (h : nodupKeys m) : nodupKeys (alSet m k v) := by
  unfold nodupKeys at h ⊢
  rw [alKeys_alSet]
  by_cases hm : k ∈ alKeys m
  · simpa [hm] using h
  · simp only [if_neg hm]
    refine List.Nodup.append h (List.nodup_singleton k) ?_
    intro a ha hb
    simp only [List.mem_singleton] at hb
    exact hm (hb ▸ ha)

theorem alGet_mem {α : Type} {m : List (String × α)} {k : String} {v : α}
    (h : alGet m k = some v) : (k, v) ∈ m := by
  induction m with
  | nil => simp [alGet] at h
  | cons kv r ih =>
      obtain ⟨k', v'⟩ := kv
      by_cases hk : k' = k
      · subst hk
        simp [alGet] at h
        simp [h]
      · simp [alGet, hk] at h
        simp [ih h]

theorem mem_alGet {α : Type} {m : List (String × α)} {k : String} {v : α}
    (hm : (k, v) ∈ m) (hn : nodupKeys m) : alGet m k = some v := by
  induction m with
  | nil => simp at hm
  | cons kv r ih =>
      obtain ⟨k', v'⟩ := kv
      unfold nodupKeys alKeys at hn
      simp only [List.map_cons, List.nodup_cons] at hn
      rcases List.mem_cons.mp hm with h1 | h2
      · injection h1 with hk hv
        subst hk
        subst hv
        simp [alGet]
      · have hk' : k' ≠ k := by
          intro he
          exact hn.1 (he ▸ (List.mem_map.mpr ⟨(k, v), h2, rfl⟩))
        simp [alGet, hk', ih h2 hn.2]

theorem alGet_foldl_alSet_of_none {α : Type} (l : List (String × α)) (acc : List (String × α))
    (k : String) (h : alGet l k = none) :
    alGet (l.foldl (fun a kv => alSet a kv.1 kv.2) acc) k = alGet acc k := by
  induction l generalizing acc with
  | nil => simp
  | cons kv r ih =>
      obtain ⟨k1, v1⟩ := kv
      by_cases hk : k1 = k
      · simp [alGet, hk] at h
      · simp only [alGet, if_neg hk] at h
        simpa [ih _ h] using alGet_alSet_ne acc k1 k v1 (Ne.symm hk)

theorem alGet_foldl_alSet_of_some {α : Type} (l : List (String × α)) (acc : List (String × α))
    (k : String) (v : α) (hn : nodupKeys l) (h : alGet l k = some v) :
    alGet (l.foldl (fun a kv => alSet a kv.1 kv.2) acc) k = some v := by
  induction l generalizing acc with
  | nil => simp [alGet] at h
  | cons kv r ih =>
      obtain ⟨k1, v1⟩ := kv
      unfold nodupKeys alKeys at hn
      simp only [List.map_cons, List.nodup_cons] at hn
      by_cases hk : k1 = k
      · subst hk
        simp [alGet] at h
        subst h
        have hr : alGet r k1 = none := (alGet_eq_none_iff r k1).mpr hn.1
        simpa [alGet_foldl_alSet_of_none r _ k1 hr] using alGet_alSet_self acc k1 v1
      · simp only [alGet, if_neg hk] at h
        exact ih _ hn.2 h

theorem mergeMaps_alGet (em nm : List (String × GoVal)) (k : String)
    (he : nodupKeys em) (hn : nodupKeys nm) :
    alGet (mergeMaps em nm) k = optOr (alGet nm k) (alGet em k) := by
  unfold mergeMaps
  cases hnm : alGet nm k with
  | some v => simp [optOr, alGet_foldl_alSet_of_some nm _ k v hn hnm]
  | none =>
      rw [alGet_foldl_alSet_of_none nm _ k hnm]
      cases hem : alGet em k with
      | some w => simp [optOr, alGet_foldl_alSet_of_some em _ k w he hem]
      | none => simp [optOr, alGet_foldl_alSet_of_none em _ k hem, alGet]

theorem mergeMaps_mem_keys (em nm : List (String × GoVal)) (k : String)
    (he : nodupKeys em) (hn : nodupKeys nm) :
    k ∈ alKeys (mergeMaps em nm) ↔ k ∈ alKeys em ∨ k ∈ alKeys nm := by
  rw [← alGet_isSome_iff, mergeMaps_alGet em nm k he hn, ← alGet_isSome_iff, ← alGet_isSome_iff]
  cases alGet nm k <;> cases alGet em k <;> simp [optOr]

theorem mergeStep_alGet_ne (acc : List (String × TfVar)) (nv : String × TfVar) (x : String)
    (h : x ≠ nv.1) : alGet (mergeStep acc nv) x = alGet acc x := by
  unfold mergeStep
  split
  · split
    · exact alGet_alSet_ne acc nv.1 x _ h
    · exact alGet_alSet_ne acc nv.1 x _ h
  · exact alGet_alSet_ne acc nv.1 x _ h

theorem mergeStep_alGet_self_of_not_map (acc : List (String × TfVar)) (n : String) (v : TfVar)
    (h : v.value.isMap = false) : alGet (mergeStep acc (n, v)) n = some v := by
  unfold mergeStep
  split
  · split
    · simp_all [GoVal.isMap]
    · exact alGet_alSet_self acc n v
  · exact alGet_alSet_self acc n v

theorem mergeInto_alGet_of_none (fv : List (String × TfVar)) (acc : List (String × TfVar))
    (x : String) (h : alGet fv x = none) : alGet (mergeInto acc fv) x = alGet acc x := by
  induction fv generalizing acc with
  | nil => rfl
  | cons kv r ih =>
      obtain ⟨k, w⟩ := kv
      by_cases hk : k = x
      · simp [alGet, hk] at h
      · simp only [alGet, if_neg hk] at h
        show alGet (mergeInto (mergeStep acc (k, w)) r) x = alGet acc x
        rw [ih _ h, mergeStep_alGet_ne acc (k, w) x (Ne.symm hk)]

theorem mergeInto_alGet_of_some_not_map (fv : List (String × TfVar)) (acc : List (String × TfVar))
    (x : String) (v : TfVar) (hn : nodupKeys fv) (h : alGet fv x = some v)
    (hm : v.value.isMap = false) : alGet (mergeInto acc fv) x = some v := by
  induction fv generalizing acc with
  | nil => simp [alGet] at h
  | cons kv r ih =>
      obtain ⟨k, w⟩ := kv
      unfold nodupKeys alKeys at hn
      simp only [List.map_cons, List.nodup_cons] at hn
      by_cases hk : k = x
      · subst hk
        simp [alGet] at h
        subst h
        have hr : alGet r k = none := (alGet_eq_none_iff r k).mpr hn.1
        show alGet (mergeInto (mergeStep acc (k, w)) r) k = some w
        rw [mergeInto_alGet_of_none r _ k hr]
        exact mergeStep_alGet_self_of_not_map acc k w hm
      · simp only [alGet, if_neg hk] at h
        exact ih _ hn.2 h

theorem foldl_mergeInto_of_none (srcs : List (List (String × TfVar)))
    (acc : List (String × TfVar)) (x : String) (h : ∀ s ∈ srcs, alGet s x = none) :
    alGet (srcs.foldl mergeInto acc) x = alGet acc x := by
  induction srcs generalizing acc with
  | nil => rfl
  | cons s r ih =>
      simp only [List.foldl_cons]
      rw [ih _ (fun t ht => h t (List.mem_cons_of_mem s ht)),
        mergeInto_alGet_of_none s acc x (h s (List.mem_cons_self s r))]

/-- C1: when the merge engine folds a new source over the accumulated set
and both the existing and the new payload of a variable are maps, the
result binds that name to the single map `mergeMaps em nm`, whose lookups
take the new source's value where both sides bind a key and the sole
binding otherwise, and whose key set is the union of both key sets. -/
theorem c1_map_merge (acc : List (String × TfVar)) (n : String) (v ex : TfVar)
    (em nm : List (String × GoVal))
    (hacc : alGet acc n = some ex) (hex : ex.value = .mapv em) (hv : v.value = .mapv nm)
    (he : nodupKeys em) (hn : nodupKeys nm) :
    alGet (mergeStep acc (n, v)) n = some ⟨n, .mapv (mergeMaps em nm), "map"⟩ ∧
    (∀ k, alGet (mergeMaps em nm) k = optOr (alGet nm k) (alGet em k)) ∧
    (∀ k, k ∈ alKeys (mergeMaps em nm) ↔ k ∈ alKeys em ∨ k ∈ alKeys nm) := by
  refine ⟨?_, fun k => mergeMaps_alGet em nm k he hn, fun k => mergeMaps_mem_keys em nm k he hn⟩
  unfold mergeStep
  simp only [hacc]
  rw [hex, hv]
  exact alGet_alSet_self acc n _

/-- Witness for C1 at the spec's own example: schema default
`tags = \x7bteam = "core", env = "x"\x7d` merged with definition
`tags = \x7benv = "prod"\x7d` gives `\x7bteam = "core", env = "prod"\x7d`. -/
theorem c1_map_merge_witness :
    alGet (mergeStep [("tags", ⟨"tags", .mapv [("team", .str "core"), ("env", .str "x")], "map"⟩)]
        ("tags", ⟨"tags", .mapv [("env", .str "prod")], "map"⟩)) "tags"
      = some ⟨"tags", .mapv (mergeMaps [("team", .str "core"), ("env", .str "x")]
          [("env", .str "prod")]), "map"⟩ ∧
    mergeMaps [("team", .str "core"), ("env", .str "x")] [("env", .str "prod")]
      = [("team", .str "core"), ("env", .str "prod")] := by
  refine ⟨(c1_map_merge
    [("tags", ⟨"tags", .mapv [("team", .str "core"), ("env", .str "x")], "map"⟩)] "tags"
    ⟨"tags", .mapv [("env", .str "prod")], "map"⟩
    ⟨"tags", .mapv [("team", .str "core"), ("env", .str "x")], "map"⟩
    [("team", .str "core"), ("env", .str "x")] [("env", .str "prod")]
    rfl rfl rfl ?_ ?_).1, rfl⟩
  · unfold nodupKeys
    decide
  · unfold nodupKeys
    decide

/-- C2: across the ordered source list, a variable whose later definition
file binds it to a non-map value ends up with exactly that later value,
the earlier one fully replaced, whatever else any file defines and
wherever the two files sit (sources after the later file not rebinding
the variable). -/
theorem c2_scalar_last_wins (pre mid post : List (List (String × TfVar)))
    (f1 f2 : List (String × TfVar)) (x : String) (v1 v2 : TfVar)
    (h1 : alGet f1 x = some v1) (hm1 : v1.value.isMap = false)
    (h2 : alGet f2 x = some v2) (hm2 : v2.value.isMap = false)
    (hn2 : nodupKeys f2)
    (hpost : ∀ s ∈ post, alGet s x = none) :
    alGet (compileMerge (pre ++ f1 :: mid ++ f2 :: post)) x = some v2 := by
  unfold compileMerge
  rw [show pre ++ f1 :: mid ++ f2 :: post = (pre ++ f1 :: mid) ++ f2 :: post by simp]
  rw [List.foldl_append]
  simp only [List.foldl_cons]
  rw [foldl_mergeInto_of_none post _ x hpost]
  exact mergeInto_alGet_of_some_not_map f2 _ x v2 hn2 h2 hm2

/-- Witness for C2: two files both defining `env` as strings, with an
unrelated earlier file and an unrelated later file; the compiled set binds
`env` to the second definition. -/
theorem c2_scalar_last_wins_witness :
    alGet (compileMerge ([[("a", ⟨"a", .str "va", "string"⟩)]] ++
        [("env", ⟨"env", .str "dev", "string"⟩)] :: [] ++
        [("env", ⟨"env", .str "prod", "string"⟩), ("b", ⟨"b", .boolv true, "bool"⟩)] ::
        [[("c", ⟨"c", .str "vc", "string"⟩)]])) "env"
      = some ⟨"env", .str "prod", "string"⟩ := by
  refine c2_scalar_last_wins [[("a", ⟨"a", .str "va", "string"⟩)]] []
    [[("c", ⟨"c", .str "vc", "string"⟩)]]
    [("env", ⟨"env", .str "dev", "string"⟩)]
    [("env", ⟨"env", .str "prod", "string"⟩), ("b", ⟨"b", .boolv true, "bool"⟩)]
    "env" ⟨"env", .str "dev", "string"⟩ ⟨"env", .str "prod", "string"⟩
    rfl rfl rfl rfl ?_ ?_
  · unfold nodupKeys
    decide
  · intro t ht
    simp only [List.mem_singleton] at ht
    subst ht
    rfl

/-- C7: a source list with missing paths compiles without error and gives
exactly the compilation of the existing paths alone: a missing file
contributes nothing and never aborts the run. -/
theorem c7_missing_files (fs : FileSys) (paths : List String) :
    CompileVariables fs paths
      = CompileVariables fs (paths.filter (fun p => (fs p).isSome)) ∧
    ∃ out, CompileVariables fs paths = Except.ok out := by
  have main : ∀ (l : List String) (acc : List (String × TfVar)),
      (l.foldlM (fun acc p =>
          match fs p with
          | none => pure acc
          | some c => do
              let vars ← parseTfvarsE c
              pure (mergeInto acc vars)) acc : Except String (List (String × TfVar)))
        = Except.ok (l.foldl (fun acc p =>
            match fs p with
            | none => acc
            | some c => mergeInto acc (parseTfvars c)) acc) := by
    intro l
    induction l with
    | nil => intro acc; rfl
    | cons p r ih =>
        intro acc
        cases hp : fs p with
        | none => simpa [List.foldlM, List.foldl, hp] using ih acc
        | some c => simpa [List.foldlM, List.foldl, hp, parseTfvarsE] using ih (mergeInto acc (parseTfvars c))
  have filt : ∀ (l : List String) (acc : List (String × TfVar)),
      ((l.filter (fun p => (fs p).isSome)).foldl (fun acc p =>
          match fs p with
          | none => acc
          | some c => mergeInto acc (parseTfvars c)) acc)
        = (l.foldl (fun acc p =>
            match fs p with
            | none => acc
            | some c => mergeInto acc (parseTfvars c)) acc) := by
    intro l
    induction l with
    | nil => intro acc; rfl
    | cons p r ih =>
        intro acc
        cases hp : fs p with
        | none => simpa [List.filter, List.foldl, hp] using ih acc
        | some c => simpa [List.filter, List.foldl, hp] using ih (mergeInto acc (parseTfvars c))
  constructor
  · unfold CompileVariables
    rw [main, main, filt]
  · exact ⟨_, by unfold CompileVariables; rw [main]; rfl⟩

/-- C9: outside an open list or map literal, a line matching none of the
five recognized value forms leaves the scanner state completely unchanged:
no error, no variable, no partial state. -/
theorem c9_unrecognized_line_skipped (st : PState) (raw : String)
    (hl : st.inList = false) (hm : st.inMap = false)
    (hmatch : lineMatchesNone (goTrimSpace raw) = true) :
    stepLine st raw = st := by
  unfold lineMatchesNone at hmatch
  simp only [Bool.and_eq_true, Option.isNone_iff_eq_none] at hmatch
  obtain ⟨⟨⟨⟨h1, h2⟩, h3⟩, h4⟩, h5⟩ := hmatch
  unfold stepLine
  simp only [hl, hm, h1, h2, h3, h4, h5]
  split
  · rfl
  · rfl

/-- Witness for C9: the line `foo = @bar` matches no value form and is
dropped with no state change. -/
theorem c9_unrecognized_line_skipped_witness :
    stepLine initPState "foo = @bar" = initPState :=
  c9_unrecognized_line_skipped initPState "foo = @bar" rfl rfl (by decide)

/-- C10: inside one definition file, an assignment to a name overwrites
any earlier binding of that name outright, even when both values are maps
(the per-file store is a plain map write, no merging): a single-line map
assignment always leaves the new parsed map as the binding, whatever was
bound before; concretely, a file assigning `x` two map literals parses to
the second literal alone, not their merge. -/
theorem c10_infile_last_assignment :
    (∀ (st : PState) (raw : String) (n : String),
        st.inList = false → st.inMap = false →
        goTrimSpace raw ≠ "" →
        startsWithLit "#".data (goTrimSpace raw).data = false →
        startsWithLit "//".data (goTrimSpace raw).data = false →
        matchStringVar (goTrimSpace raw).data = none →
        matchNumberVar (goTrimSpace raw).data = none →
        matchBoolVar (goTrimSpace raw).data = none →
        matchListStart (goTrimSpace raw).data = none →
        matchMapStart (goTrimSpace raw).data = some n →
        containsChar '\x7d' (goTrimSpace raw).data = true →
        alGet (stepLine st raw).vars n
          = some ⟨n, .mapv (parseMapValue (sliceBetween '\x7b' '\x7d' (goTrimSpace raw))), "map"⟩) ∧
    alGet (parseTfvars "x = \x7ba = 1\x7d\nx = \x7bb = 2\x7d") "x"
      = some ⟨"x", .mapv [("b", .numv ⟨2, 0⟩)], "map"⟩ := by
  constructor
  · intro st raw n hl hm hne hc1 hc2 h1 h2 h3 h4 h5 h6
    unfold stepLine
    simp only [hl, hm, hne, hc1, hc2, h1, h2, h3, h4, h5, h6]
    simp only [pSet, if_true]
    exact alGet_alSet_self st.vars n _
  · rfl

/-- Witness for C10: a state already holding `x` bound to the map
`\x7ba = 1\x7d` processes the line `x = \x7bb = 2\x7d` and ends with `x`
bound to the newly parsed map alone. -/
theorem c10_infile_last_assignment_witness :
    alGet (stepLine ⟨[("x", ⟨"x", .mapv [("a", .numv ⟨1, 0⟩)], "map"⟩)],
        false, "", [], false, "", []⟩ "x = \x7bb = 2\x7d").vars "x"
      = some ⟨"x", .mapv (parseMapValue (sliceBetween '\x7b' '\x7d'
          (goTrimSpace "x = \x7bb = 2\x7d"))), "map"⟩ :=
  c10_infile_last_assignment.1
    ⟨[("x", ⟨"x", .mapv [("a", .numv ⟨1, 0⟩)], "map"⟩)], false, "", [], false, "", []⟩
    "x = \x7bb = 2\x7d" "x" rfl rfl (by decide) (by decide) (by decide)
    (by decide) (by decide) (by decide) (by decide) (by decide) (by decide)

/-- C5: for a line assigning a double-quoted string whose text carries the
ERB placeholder, the parser stores the token table's mapped string
(`DefaultEnvironment`) when the found token is the one defined token
`:ENV`, and stores the original text unchanged, placeholder included, for
any other token; concretely on the two example lines. -/
theorem c5_placeholder_expansion :
    (∀ (st : PState) (raw : String) (n v : String),
        st.inList = false → st.inMap = false →
        goTrimSpace raw ≠ "" →
        startsWithLit "#".data (goTrimSpace raw).data = false →
        startsWithLit "//".data (goTrimSpace raw).data = false →
        matchStringVar (goTrimSpace raw).data = some (n, v) →
        (erbFind v.data = some ":ENV" →
            alGet (stepLine st raw).vars n = some ⟨n, .str DefaultEnvironment, "string"⟩) ∧
          (∀ t, erbFind v.data = some t → t ≠ ":ENV" →
            alGet (stepLine st raw).vars n = some ⟨n, .str v, "string"⟩)) ∧
    alGet (parseTfvars "e = \"<%= expansion(':ENV') %>\"") "e"
      = some ⟨"e", .str "usgw1-dev-devops", "string"⟩ ∧
    alGet (parseTfvars "e = \"<%= expansion('TEAM') %>\"") "e"
      = some ⟨"e", .str "<%= expansion('TEAM') %>", "string"⟩ := by
  refine ⟨?_, rfl, rfl⟩
  intro st raw n v hl hm hne hc1 hc2 hsv
  constructor
  · intro herb
    unfold stepLine
    simp only [hl, hm, hne, hc1, hc2, hsv]
    simp only [pSet, expandErb, herb, if_pos rfl]
    exact alGet_alSet_self st.vars n _
  · intro t herb hne'
    unfold stepLine
    simp only [hl, hm, hne, hc1, hc2, hsv]
    simp only [pSet, expandErb, herb, if_neg hne']
    exact alGet_alSet_self st.vars n _

/-- Witness for C5's general part: the line `e = "pre <%= expansion('X') %>"`
has an unmapped token, so the stored value is the original text. -/
theorem c5_placeholder_expansion_witness :
    alGet (stepLine initPState "e = \"pre <%= expansion('X') %>\"").vars "e"
      = some ⟨"e", .str "pre <%= expansion('X') %>", "string"⟩ :=
  (c5_placeholder_expansion.1 initPState "e = \"pre <%= expansion('X') %>\""
      "e" "pre <%= expansion('X') %>" rfl rfl (by decide) (by decide) (by decide)
      (by decide)).2 "X" (by decide) (by decide)

theorem exchPass_length (x : String) (l : List String) :
    (exchPass x l).2.length = l.length := by
  induction l generalizing x with
  | nil => rfl
  | cons y ys ih =>
      unfold exchPass
      by_cases h : y < x
      · simp [h, ih y]
      · simp [h, ih x]

theorem exchPass_perm (x : String) (l : List String) :
    List.Perm (x :: l) ((exchPass x l).1 :: (exchPass x l).2) := by
  induction l generalizing x with
  | nil => exact List.Perm.refl _
  | cons y ys ih =>
      unfold exchPass
      by_cases h : y < x
      · simp only [h, if_true]
        exact (List.Perm.cons x (ih y)).trans
          (List.Perm.swap (exchPass y ys).1 x (exchPass y ys).2)
      · simp only [h, if_false]
        exact ((List.Perm.swap y x ys).trans (List.Perm.cons y (ih x))).trans
          (List.Perm.swap (exchPass x ys).1 y (exchPass x ys).2)

theorem exchPass_fst_le (x : String) (l : List String) : (exchPass x l).1 ≤ x := by
  induction l generalizing x with
  | nil => exact le_refl x
  | cons y ys ih =>
      unfold exchPass
      by_cases h : y < x
      · simpa [h] using le_trans (ih y) (le_of_lt h)
      · simpa [h] using ih x

theorem exchPass_fst_le_mem (x : String) (l : List String) :
    ∀ y ∈ (exchPass x l).2, (exchPass x l).1 ≤ y := by
  induction l generalizing x with
  | nil => intro y hy; simp [exchPass] at hy
  | cons y ys ih =>
      unfold exchPass
      by_cases h : y < x
      · simp only [h, if_true]
        intro z hz
        rcases List.mem_cons.mp hz with h1 | h2
        · exact h1 ▸ le_trans (exchPass_fst_le y ys) (le_of_lt h)
        · exact ih y z h2
      · simp only [h, if_false]
        intro z hz
        rcases List.mem_cons.mp hz with h1 | h2
        · exact h1 ▸ le_trans (exchPass_fst_le x ys) (le_of_not_lt h)
        · exact ih x z h2

theorem exchSortFuel_perm : ∀ (f : Nat) (l : List String), l.length ≤ f →
    List.Perm l (exchSortFuel f l) := by
  intro f
  induction f with
  | zero =>
      intro l hl
      interval_cases h : l.length
      · rw [List.length_eq_zero.mp h]
        exact List.Perm.refl _
  | succ f ih =>
      intro l hl
      match l with
      | [] => exact List.Perm.refl _
      | x :: xs =>
          show List.Perm (x :: xs) ((exchPass x xs).1 :: exchSortFuel f (exchPass x xs).2)
          refine (exchPass_perm x xs).trans (List.Perm.cons _ (ih _ ?_))
          rw [exchPass_length]
          simpa using hl

theorem exchSortFuel_sorted : ∀ (f : Nat) (l : List String), l.length ≤ f →
    List.Sorted (· ≤ ·) (exchSortFuel f l) := by
  intro f
  induction f with
  | zero =>
      intro l hl
      rw [List.length_eq_zero.mp (Nat.le_zero.mp hl)]
      exact List.sorted_nil
  | succ f ih =>
      intro l hl
      match l with
      | [] => exact List.sorted_nil
      | x :: xs =>
          show List.Sorted (· ≤ ·) ((exchPass x xs).1 :: exchSortFuel f (exchPass x xs).2)
          have hlen : (exchPass x xs).2.length ≤ f := by
            rw [exchPass_length]
            simpa using hl
          rw [List.sorted_cons]
          refine ⟨fun b hb => ?_, ih _ hlen⟩
          exact exchPass_fst_le_mem x xs b ((exchSortFuel_perm f _ hlen).mem_iff.mpr hb)

theorem exchSort_perm (l : List String) : List.Perm l (exchSort l) :=
  exchSortFuel_perm l.length l (le_refl _)

theorem exchSort_sorted (l : List String) : List.Sorted (· ≤ ·) (exchSort l) :=
  exchSortFuel_sorted l.length l (le_refl _)

theorem exchSort_eq_of_perm (l₁ l₂ : List String) (h : List.Perm l₁ l₂) :
    exchSort l₁ = exchSort l₂ :=
  List.eq_of_perm_of_sorted
    ((exchSort_perm l₁).symm.trans (h.trans (exchSort_perm l₂)))
    (exchSort_sorted l₁) (exchSort_sorted l₂)

theorem nodupKeys_of_perm {α : Type} {l₁ l₂ : List (String × α)} (h : List.Perm l₁ l₂)
    (hn : nodupKeys l₁) : nodupKeys l₂ :=
  ((h.map Prod.fst).nodup_iff).mp hn

theorem alGet_eq_of_perm {α : Type} {l₁ l₂ : List (String × α)} (h : List.Perm l₁ l₂)
    (hn : nodupKeys l₁) (k : String) : alGet l₁ k = alGet l₂ k := by
  cases h1 : alGet l₁ k with
  | some v =>
      exact (mem_alGet (h.mem_iff.mp (alGet_mem h1)) (nodupKeys_of_perm h hn)).symm
  | none =>
      refine ((alGet_eq_none_iff l₂ k).mpr ?_).symm
      intro hk
      exact (alGet_eq_none_iff l₁ k).mp h1 ((h.map Prod.fst).mem_iff.mpr hk)

/-- C6: the serialized output iterates variables in ascending
lexicographic name order — the emitted name sequence is sorted and is a
permutation of the set's names, the output is exactly the header followed
by the variables rendered in that order, and the bytes do not depend on
the order in which the set's entries were accumulated. -/
theorem c6_lex_order (vars : List (String × TfVar)) :
    List.Sorted (· ≤ ·) (exchSort (alKeys vars)) ∧
    List.Perm (alKeys vars) (exchSort (alKeys vars)) ∧
    generateCompiledTfvars vars
      = tfvarsHeaderStr ++ String.join ((exchSort (alKeys vars)).map (fun n =>
          match alGet vars n with
          | some v => formatVariable v ++ "\n"
          | none => " = \"<nil>\"\n")) ∧
    (∀ vars₂, nodupKeys vars → List.Perm vars vars₂ →
        generateCompiledTfvars vars = generateCompiledTfvars vars₂) := by
  refine ⟨exchSort_sorted _, exchSort_perm _, rfl, ?_⟩
  intro vars₂ hn hperm
  unfold generateCompiledTfvars
  have hkeys : exchSort (alKeys vars) = exchSort (alKeys vars₂) :=
    exchSort_eq_of_perm _ _ (hperm.map Prod.fst)
  rw [hkeys]
  have hget : ∀ n, alGet vars n = alGet vars₂ n := alGet_eq_of_perm hperm hn
  have : ∀ n, (match alGet vars n with
      | some v => formatVariable v ++ "\n"
      | none => " = \"<nil>\"\n")
      = (match alGet vars₂ n with
        | some v => formatVariable v ++ "\n"
        | none => " = \"<nil>\"\n") := fun n => by rw [hget n]
  rw [List.map_congr_left (fun n _ => this n)]

/-- Witness for C6: two accumulation orders of the same two variables
serialize to the same bytes. -/
theorem c6_lex_order_witness :
    generateCompiledTfvars
        [("b", ⟨"b", .str "v", "string"⟩), ("a", ⟨"a", .boolv true, "bool"⟩)]
      = generateCompiledTfvars
        [("a", ⟨"a", .boolv true, "bool"⟩), ("b", ⟨"b", .str "v", "string"⟩)] :=
  (c6_lex_order [("b", ⟨"b", .str "v", "string"⟩), ("a", ⟨"a", .boolv true, "bool"⟩)]).2.2.2
    [("a", ⟨"a", .boolv true, "bool"⟩), ("b", ⟨"b", .str "v", "string"⟩)]
    (by unfold nodupKeys; decide) (List.Perm.swap _ _ _)

theorem removeOne_perm {α : Type} (p : α → Bool) :
    ∀ (ys ys' : List α), removeOne p ys = some ys' →
      ∃ y, y ∈ ys ∧ p y = true ∧ List.Perm ys (y :: ys') := by
  intro ys
  induction ys with
  | nil => intro ys' h; simp [removeOne] at h
  | cons z zs ih =>
      intro ys' h
      by_cases hz : p z = true
      · simp only [removeOne, hz, if_true, Option.some.injEq] at h
        exact ⟨z, List.mem_cons_self z zs, hz, h ▸ List.Perm.refl _⟩
      · simp only [removeOne, hz, if_false, Bool.false_eq_true, Option.map_eq_some'] at h
        obtain ⟨zs'', hrec, hcons⟩ := h
        obtain ⟨y, hy, hp, hperm⟩ := ih zs'' hrec
        refine ⟨y, List.mem_cons_of_mem z hy, hp, ?_⟩
        rw [← hcons]
        exact (List.Perm.cons z hperm).trans (List.Perm.swap y z zs'')

theorem permByBEq_sound {α : Type} (beq : α → α → Bool)
    (hb : ∀ a b, beq a b = true → a = b) :
    ∀ (l₁ l₂ : List α), permByBEq beq l₁ l₂ = true → List.Perm l₁ l₂ := by
  intro l₁
  induction l₁ with
  | nil =>
      intro l₂ h
      simp only [permByBEq, List.isEmpty_iff] at h
      exact h ▸ List.Perm.refl _
  | cons x xs ih =>
      intro l₂ h
      unfold permByBEq at h
      cases hrem : removeOne (beq x) l₂ with
      | none => rw [hrem] at h; exact absurd h (by simp)
      | some ys' =>
          rw [hrem] at h
          obtain ⟨y, _, hp, hperm⟩ := removeOne_perm (beq x) l₂ ys' hrem
          rw [← hb x y hp] at hperm
          exact (List.Perm.cons x (ih ys' h)).trans hperm.symm

theorem prodBEq_sound (x y : String × GoVal)
    (h : (x.1 = y.1 && valBEq x.2 y.2) = true) : x = y := by
  simp only [Bool.and_eq_true, decide_eq_true_eq] at h
  obtain ⟨x1, x2⟩ := x
  obtain ⟨y1, y2⟩ := y
  simp only at h
  simp [h.1, valBEq_sound h.2]

theorem valEquivb_sound_of_small {a b : GoVal} (hs : smallMapsVar ⟨"", a, ""⟩ = true)
    (h : valEquivb a b = true) : a = b := by
  cases a with
  | mapv m₁ =>
      cases b with
      | mapv m₂ =>
          simp only [valEquivb] at h
          have hperm := permByBEq_sound _ prodBEq_sound m₁ m₂ h
          simp only [smallMapsVar] at hs
          match m₁, hperm, hs with
          | [], hperm, _ =>
              rw [List.Perm.nil_eq hperm]
          | [e], hperm, _ =>
              rw [(List.perm_singleton.mp hperm.symm)]
      | str s => exact absurd h (by simp [valEquivb, valBEq])
      | numv f => exact absurd h (by simp [valEquivb, valBEq])
      | intv n => exact absurd h (by simp [valEquivb, valBEq])
      | boolv bb => exact absurd h (by simp [valEquivb, valBEq])
      | listv xs => exact absurd h (by simp [valEquivb, valBEq])
  | str s => cases b <;> first | exact valBEq_sound h | exact absurd h (by simp [valEquivb, valBEq])
  | numv f => cases b <;> first | exact valBEq_sound h | exact absurd h (by simp [valEquivb, valBEq])
  | intv n => cases b <;> first | exact valBEq_sound h | exact absurd h (by simp [valEquivb, valBEq])
  | boolv bb => cases b <;> first | exact valBEq_sound h | exact absurd h (by simp [valEquivb, valBEq])
  | listv xs => cases b <;> first | exact valBEq_sound h | exact absurd h (by simp [valEquivb, valBEq])

theorem tfVarEquivb_sound_of_small {a b : TfVar} (hs : smallMapsVar a = true)
    (h : tfVarEquivb a b = true) : a = b := by
  simp only [tfVarEquivb, Bool.and_eq_true, decide_eq_true_eq] at h
  obtain ⟨⟨h1, h2⟩, h3⟩ := h
  obtain ⟨an, av, aty⟩ := a
  obtain ⟨bn, bv, bty⟩ := b
  simp only at h1 h2 h3 ⊢
  subst h1
  subst h3
  simp only [smallMapsVar] at hs
  rw [valEquivb_sound_of_small hs h2]

/-- Counterexample to C3 as stated: two runs over the same Go state — the
same variable bound to the same two-key Go map, observed under the two
possible iteration orders — serialize to different bytes, because
`formatVariable` emits a map's lines in Go map iteration order, which is
not fixed.  So byte-identical output across runs, including the line
order inside every map rendering, does not hold. -/
theorem c3_two_run_determinism_cex :
    ¬ (∀ s₁ s₂ : List (String × TfVar), setEquivb s₁ s₂ = true →
        generateCompiledTfvars s₁ = generateCompiledTfvars s₂) := by
  intro h
  have heq := h [("m", ⟨"m", .mapv [("a", .str "1"), ("b", .str "2")], "map"⟩)]
      [("m", ⟨"m", .mapv [("b", .str "2"), ("a", .str "1")], "map"⟩)] (by decide)
  exact absurd heq (by decide)

/-- C3 amended: two runs over the same ordered source list produce
byte-identical serialized output as long as Go's map iteration order
cannot show through — in particular whenever every map-typed payload has
at most one key; variable order and all other renderings never depend on
the run. -/
theorem c3_two_run_determinism_amended (s₁ s₂ : List (String × TfVar))
    (hn : nodupKeys s₁)
    (hsmall : ∀ e ∈ s₁, smallMapsVar e.2 = true)
    (heq : setEquivb s₁ s₂ = true) :
    generateCompiledTfvars s₁ = generateCompiledTfvars s₂ := by
  unfold setEquivb at heq
  simp only [Bool.and_eq_true] at heq
  obtain ⟨hkeys, hall⟩ := heq
  have hkperm : List.Perm (alKeys s₁) (alKeys s₂) :=
    permByBEq_sound _ (fun a b hab => by simpa using hab) _ _ hkeys
  rw [List.all_eq_true] at hall
  have hget : ∀ k, alGet s₁ k = alGet s₂ k := by
    intro k
    by_cases hm : k ∈ alKeys s₁
    · have := hall k hm
      cases h1 : alGet s₁ k with
      | none => exact absurd ((alGet_eq_none_iff s₁ k).mp h1) (by simpa using hm)
      | some a =>
          cases h2 : alGet s₂ k with
          | none => rw [h1, h2] at this; exact absurd this (by simp)
          | some b =>
              rw [h1, h2] at this
              have hab : tfVarEquivb a b = true := this
              have hsa : smallMapsVar a = true := hsmall (k, a) (alGet_mem h1)
              rw [tfVarEquivb_sound_of_small hsa hab]
    · rw [(alGet_eq_none_iff s₁ k).mpr hm,
        (alGet_eq_none_iff s₂ k).mpr (fun hc => hm (hkperm.mem_iff.mpr hc))]
  unfold generateCompiledTfvars
  rw [exchSort_eq_of_perm _ _ hkperm]
  rw [List.map_congr_left (fun n _ => by rw [hget n])]

/-- Witness for the amended C3: the same single-key map observed in two
runs (the only iteration order there is) serializes identically. -/
theorem c3_two_run_determinism_amended_witness :
    generateCompiledTfvars [("m", ⟨"m", .mapv [("a", .str "1")], "map"⟩),
        ("s", ⟨"s", .str "v", "string"⟩)]
      = generateCompiledTfvars [("s", ⟨"s", .str "v", "string"⟩),
        ("m", ⟨"m", .mapv [("a", .str "1")], "map"⟩)] := by
  refine c3_two_run_determinism_amended _ _ ?_ ?_ (by decide)
  · unfold nodupKeys
    decide
  · intro e he
    simp only [List.mem_cons, List.not_mem_nil, or_false] at he
    rcases he with h | h <;> subst h <;> decide

/-- Counterexample to C4 as stated: the schema block
`variable "config" \x7b type = object(\x7b replicas = optional(number, 3) \x7d) \x7d`
parses to the default map binding `replicas` to the Go `int` 3 (from
`strconv.Atoi`), which is not the `float64` 3.0 the claim names — the two
are distinct Go values and serialize differently (the int renders
quoted). -/
theorem c4_optional_default_cex :
    alGet (parseVariablesTf
        "variable \"config\" \x7b\n  type = object(\x7b\n    replicas = optional(number, 3)\n  \x7d)\n\x7d")
        "config"
      = some ⟨"config", .mapv [("replicas", .intv 3)], "map"⟩ ∧
    (∀ f : GoFloat, GoVal.intv 3 ≠ GoVal.numv f) ∧
    formatMapItem ("replicas", .intv 3) = "  replicas = \"3\"" :=
  ⟨rfl, fun _ h => GoVal.noConfusion h, by decide⟩

/-- C4 amended: the schema block yields the map default
`\x7breplicas: 3\x7d` with 3 a Go `int`; an `optional(type, default)`
default text is typed as bool, quoted string, integer, float, in that
priority (`"3"` stays a string, `3` becomes an integer, `3.5` a float);
and a line whose `optional(...)` has no top-level comma contributes no
default. -/
theorem c4_optional_default_amended :
    alGet (parseVariablesTf
        "variable \"config\" \x7b\n  type = object(\x7b\n    replicas = optional(number, 3)\n  \x7d)\n\x7d")
        "config"
      = some ⟨"config", .mapv [("replicas", .intv 3)], "map"⟩ ∧
    parseOptionalValue "true" = some (.boolv true) ∧
    parseOptionalValue "false" = some (.boolv false) ∧
    parseOptionalValue "\"3\"" = some (.str "3") ∧
    parseOptionalValue "3" = some (.intv 3) ∧
    parseOptionalValue "3.5" = some (.numv ⟨35, 1⟩) ∧
    (∀ (raw : String) (oStart : Nat),
        indexOfLit "optional(".data (trimChars isSpaceChar raw.data) = some oStart →
        (optScanAux ((trimChars isSpaceChar raw.data).drop (oStart + 9))
            (oStart + 9) 0 false 0).1 = false →
        optionalLineDefault raw = none) := by
  refine ⟨rfl, rfl, rfl, rfl, rfl, rfl, ?_⟩
  intro raw oStart hidx hscan
  have hcont : containsLit "optional(".data (trimChars isSpaceChar raw.data) = true := by
    unfold containsLit
    rw [hidx]
    rfl
  unfold optionalLineDefault
  cases hf : findFieldName (trimChars isSpaceChar raw.data) with
  | none => simp [hcont, hf]
  | some fname => simp [hcont, hf, hidx, hscan]

/-- Witness for the amended C4's general part: the field declaration
`replicas = optional(number)` carries no top-level comma, so no default is
extracted for it. -/
theorem c4_optional_default_amended_witness :
    optionalLineDefault "replicas = optional(number)" = none :=
  c4_optional_default_amended.2.2.2.2.2.2 "replicas = optional(number)" 11
    (by decide) (by decide)

theorem splitOnChar_cons (c x : Char) (xs : List Char) :
    splitOnChar c (x :: xs)
      = (if x = c then [] :: splitOnChar c xs
         else
           match splitOnChar c xs with
           | h :: t => (x :: h) :: t
           | [] => [[x]]) := rfl

theorem takeWhile_append_cons (p : Char → Bool) (a : List Char) (c : Char) (r : List Char)
    (ha : ∀ x ∈ a, p x = true) (hc : p c = false) :
    (a ++ c :: r).takeWhile p = a ∧ (a ++ c :: r).dropWhile p = c :: r := by
  induction a with
  | nil =>
      constructor <;> simp [List.takeWhile_cons, List.dropWhile_cons, hc]
  | cons y ys ih =>
      have hy : p y = true := ha y (List.mem_cons_self y ys)
      have ihr := ih (fun x hx => ha x (List.mem_cons_of_mem y hx))
      constructor
      · simpa [List.takeWhile_cons, hy] using ihr.1
      · simpa [List.dropWhile_cons, hy] using ihr.2

theorem dropWhile_cons_ne (p : Char → Bool) (c : Char) (r : List Char) (hc : p c = false) :
    (c :: r).dropWhile p = c :: r := by
  simp [List.dropWhile_cons, hc]

theorem trimChars_sandwich (p : Char → Bool) (c d : Char) (a : List Char)
    (hc : p c = false) (hd : p d = false) :
    trimChars p (c :: (a ++ [d])) = c :: (a ++ [d]) := by
  unfold trimChars dropTrailing
  rw [dropWhile_cons_ne p c _ hc]
  have hrev : (c :: (a ++ [d])).reverse = d :: (a.reverse ++ [c]) := by
    simp
  rw [hrev, dropWhile_cons_ne p d _ hd]
  simp

theorem trimChars_single (p : Char → Bool) (c : Char) (hc : p c = false) :
    trimChars p [c] = [c] := by
  unfold trimChars dropTrailing
  rw [dropWhile_cons_ne p c _ hc]
  simp [dropWhile_cons_ne p c _ hc]

theorem splitOnChar_no_sep (c : Char) (a : List Char) (ha : ∀ x ∈ a, x ≠ c) :
    splitOnChar c a = [a] := by
  induction a with
  | nil => rfl
  | cons y ys ih =>
      have hy : y ≠ c := ha y (List.mem_cons_self y ys)
      have ihr := ih (fun x hx => ha x (List.mem_cons_of_mem y hx))
      rw [splitOnChar_cons, ihr]
      simp [hy]

theorem splitOnChar_append_sep (c : Char) (a r : List Char) (ha : ∀ x ∈ a, x ≠ c) :
    splitOnChar c (a ++ c :: r) = a :: splitOnChar c r := by
  induction a with
  | nil => simp [splitOnChar_cons]
  | cons y ys ih =>
      have hy : y ≠ c := ha y (List.mem_cons_self y ys)
      have ihr := ih (fun x hx => ha x (List.mem_cons_of_mem y hx))
      show splitOnChar c (y :: (ys ++ c :: r)) = (y :: ys) :: splitOnChar c r
      rw [splitOnChar_cons, ihr]
      simp [hy]

theorem splitOnChar_ne_nil (c : Char) (a : List Char) : splitOnChar c a ≠ [] := by
  cases a with
  | nil => simp [splitOnChar]
  | cons y ys =>
      rw [splitOnChar_cons]
      by_cases hy : y = c
      · simp [hy]
      · simp only [hy, if_false]
        cases h : splitOnChar c ys <;> simp

theorem splitOnChar_cons_ne (c : Char) (y : Char) (ys A : List Char) (T : List (List Char))
    (hy : y ≠ c) (h : splitOnChar c ys = A :: T) :
    splitOnChar c (y :: ys) = (y :: A) :: T := by
  rw [splitOnChar_cons, h]
  simp [hy]

theorem containsChar_iff (c : Char) (cs : List Char) :
    containsChar c cs = true ↔ c ∈ cs := by
  unfold containsChar
  simp only [List.any_eq_true, decide_eq_true_eq]
  constructor
  · rintro ⟨d, hd, rfl⟩
    exact hd
  · intro h
    exact ⟨c, h, rfl⟩

theorem containsChar_false_iff (c : Char) (cs : List Char) :
    containsChar c cs = false ↔ c ∉ cs := by
  rw [← Bool.not_eq_true, not_iff_not]
  exact containsChar_iff c cs

theorem strData_append (a b : String) : (a ++ b).data = a.data ++ b.data := rfl

theorem word_not_space (c : Char) (h : isWordChar c = true) : isSpaceChar c = false := by
  by_contra hc
  rw [Bool.not_eq_false] at hc
  unfold isSpaceChar at hc
  simp only [Bool.or_eq_true, decide_eq_true_eq] at hc
  rcases hc with ((((rfl | rfl) | rfl) | rfl) | rfl) | rfl <;> exact absurd h (by decide)

theorem word_ne_char (c k : Char) (h : isWordChar c = true) (hk : isWordChar k = false) :
    c ≠ k := by
  rintro rfl
  rw [h] at hk
  exact Bool.noConfusion hk

theorem matchIdentEq_gen (n : String) (hn : isIdentStr n = true) (t : List Char) :
    matchIdentEq (n.data ++ ' ' :: '=' :: ' ' :: '[' :: t) = some (n.data, '[' :: t) := by
  unfold isIdentStr at hn
  simp only [Bool.and_eq_true, List.all_eq_true, Bool.not_eq_true'] at hn
  obtain ⟨hne, hall⟩ := hn
  have h1 := takeWhile_append_cons isWordChar n.data ' ' ('=' :: ' ' :: '[' :: t)
    hall (by decide)
  unfold matchIdentEq
  rw [h1.1, h1.2]
  simp only [hne, Bool.false_eq_true, if_false]
  rw [show (' ' :: '=' :: ' ' :: '[' :: t).dropWhile isRegexSpace = '=' :: ' ' :: '[' :: t by
    simp [List.dropWhile_cons, (by decide : isRegexSpace ' ' = true),
      (by decide : isRegexSpace '=' = false)]]
  show some (n.data, (' ' :: '[' :: t).dropWhile isRegexSpace) = some (n.data, '[' :: t)
  rw [show (' ' :: '[' :: t).dropWhile isRegexSpace = '[' :: t by
    simp [List.dropWhile_cons, (by decide : isRegexSpace ' ' = true),
      (by decide : isRegexSpace '[' = false)]]

theorem matchStringVar_listline (n : String) (hn : isIdentStr n = true) (t : List Char) :
    matchStringVar (n.data ++ ' ' :: '=' :: ' ' :: '[' :: t) = none := by
  unfold matchStringVar
  rw [matchIdentEq_gen n hn t]
  rfl

theorem matchNumberVar_listline (n : String) (hn : isIdentStr n = true) (t : List Char) :
    matchNumberVar (n.data ++ ' ' :: '=' :: ' ' :: '[' :: t) = none := by
  unfold matchNumberVar
  rw [matchIdentEq_gen n hn t]
  rfl

theorem matchBoolVar_listline (n : String) (hn : isIdentStr n = true) (t : List Char) :
    matchBoolVar (n.data ++ ' ' :: '=' :: ' ' :: '[' :: t) = none := by
  unfold matchBoolVar
  rw [matchIdentEq_gen n hn t]
  rfl

theorem matchListStart_listline (n : String) (hn : isIdentStr n = true) (t : List Char) :
    matchListStart (n.data ++ ' ' :: '=' :: ' ' :: '[' :: t) = some n := by
  unfold matchListStart
  rw [matchIdentEq_gen n hn t]
  rfl

theorem beforeLastChar_append_single (c : Char) (a : List Char) :
    beforeLastChar c (a ++ [c]) = a := by
  unfold beforeLastChar
  rw [show (a ++ [c]).reverse = c :: a.reverse by simp]
  rw [dropWhile_cons_ne _ c _ (by simp)]
  simp

theorem cleanElem_parts (s : String) (h : cleanListElem s = true) :
    s.data ≠ [] ∧ ∀ x ∈ s.data, x ≠ ',' ∧ x ≠ '"' ∧ x ≠ '\n' := by
  unfold cleanListElem at h
  simp only [Bool.and_eq_true, List.all_eq_true, Bool.not_eq_true'] at h
  obtain ⟨h1, h2⟩ := h
  constructor
  · intro hd
    rw [hd] at h1
    exact absurd h1 (by decide)
  · intro x hx
    have := h2 x hx
    simp only [Bool.or_eq_false_iff, decide_eq_false_iff_not] at this
    exact ⟨this.1.1, this.1.2, this.2⟩

theorem quoted_data (s : String) : ("\"" ++ s ++ "\"").data = '"' :: (s.data ++ ['"']) := by
  simp [strData_append]

theorem mem_quoted_ne_comma (e : String) (he : cleanListElem e = true) :
    ∀ x ∈ '"' :: (e.data ++ ['"']), x ≠ ',' := by
  intro x hx
  have hx2 : x = '"' ∨ x ∈ e.data := by
    simp only [List.mem_cons, List.mem_append, List.mem_singleton] at hx
    tauto
  rcases hx2 with rfl | hx2
  · decide
  · exact ((cleanElem_parts e he).2 x hx2).1

theorem split_join_quoted (e : String) (es : List String)
    (he : cleanListElem e = true) (hes : ∀ x ∈ es, cleanListElem x = true) :
    splitOnChar ',' (joinSep ", " ((e :: es).map (fun s => "\"" ++ s ++ "\""))).data
      = ('"' :: (e.data ++ ['"'])) :: es.map (fun s => ' ' :: '"' :: (s.data ++ ['"'])) := by
  induction es generalizing e with
  | nil =>
      show splitOnChar ',' ("\"" ++ e ++ "\"").data = _
      rw [quoted_data, splitOnChar_no_sep ',' _ (mem_quoted_ne_comma e he)]
      simp
  | cons f rest ih =>
      have hd : (("\"" ++ e ++ "\"") ++ ", " ++
            joinSep ", " ((f :: rest).map (fun s => "\"" ++ s ++ "\""))).data
          = ('"' :: (e.data ++ ['"'])) ++ ',' :: ' ' ::
            (joinSep ", " ((f :: rest).map (fun s => "\"" ++ s ++ "\""))).data := by
        rw [strData_append, strData_append, quoted_data]
        simp
      show splitOnChar ',' (("\"" ++ e ++ "\"") ++ ", " ++
          joinSep ", " ((f :: rest).map (fun s => "\"" ++ s ++ "\""))).data = _
      rw [hd, splitOnChar_append_sep ',' _ _ (mem_quoted_ne_comma e he)]
      have ihr := ih f (hes f (List.mem_cons_self f rest))
        (fun x hx => hes x (List.mem_cons_of_mem f hx))
      rw [splitOnChar_cons_ne ',' ' ' _ _ _ (by decide) ihr]
      simp

theorem dropWhile_eq_self_of_all (p : Char → Bool) (l : List Char)
    (h : ∀ x ∈ l, p x = false) : l.dropWhile p = l := by
  cases l with
  | nil => rfl
  | cons c r => exact dropWhile_cons_ne p c r (h c (List.mem_cons_self c r))

theorem trimQuotes_quoted (e : String) (he : cleanListElem e = true) :
    trimChars (fun d => d = '"') ('"' :: (e.data ++ ['"'])) = e.data := by
  obtain ⟨hne, hchars⟩ := cleanElem_parts e he
  cases hd : e.data with
  | nil => exact absurd hd hne
  | cons c0 et =>
      have hmem0 : c0 ∈ e.data := by
        rw [hd]
        exact List.mem_cons_self c0 et
      have hc0 : c0 ≠ '"' := (hchars c0 hmem0).2.1
      have hallrev : ∀ x ∈ et.reverse ++ [c0], (decide (x = '"')) = false := by
        intro x hx
        simp only [List.mem_append, List.mem_reverse, List.mem_singleton] at hx
        have hxmem : x ∈ e.data := by
          rw [hd]
          rcases hx with hx | hx2
          · exact List.mem_cons_of_mem c0 hx
          · rw [hx2]
            exact List.mem_cons_self c0 et
        simp [(hchars x hxmem).2.1]
      unfold trimChars dropTrailing
      rw [show ('"' :: ((c0 :: et) ++ ['"'])) = '"' :: c0 :: (et ++ ['"']) by simp]
      rw [show List.dropWhile (fun d => decide (d = '"')) ('"' :: c0 :: (et ++ ['"']))
          = c0 :: (et ++ ['"']) by simp [List.dropWhile_cons, hc0]]
      rw [show (c0 :: (et ++ ['"'])).reverse = '"' :: (et.reverse ++ [c0]) by simp]
      rw [show List.dropWhile (fun d => decide (d = '"')) ('"' :: (et.reverse ++ [c0]))
          = et.reverse ++ [c0] by
        simp [List.dropWhile_cons, dropWhile_eq_self_of_all _ _ hallrev]]
      simp

theorem trimSpace_quoted (a : List Char) :
    trimChars isSpaceChar ('"' :: (a ++ ['"'])) = '"' :: (a ++ ['"']) :=
  trimChars_sandwich isSpaceChar '"' '"' a (by decide) (by decide)

theorem trimSpace_space_quoted (a : List Char) :
    trimChars isSpaceChar (' ' :: '"' :: (a ++ ['"'])) = '"' :: (a ++ ['"']) := by
  unfold trimChars dropTrailing
  rw [show List.dropWhile isSpaceChar (' ' :: '"' :: (a ++ ['"'])) = '"' :: (a ++ ['"']) by
    simp [List.dropWhile_cons, (by decide : isSpaceChar ' ' = true),
      (by decide : isSpaceChar '"' = false)]]
  rw [show ('"' :: (a ++ ['"'])).reverse = '"' :: (a.reverse ++ ['"']) by simp]
  rw [dropWhile_cons_ne _ _ _ (by decide)]
  simp

theorem filterMap_eq_map_of_some {α β : Type} (f : α → Option β) (h : α → β) (l : List α)
    (H : ∀ a ∈ l, f a = some (h a)) : l.filterMap f = l.map h := by
  induction l with
  | nil => rfl
  | cons a r ih =>
      rw [List.filterMap_cons, H a (List.mem_cons_self a r), List.map_cons,
        ih (fun b hb => H b (List.mem_cons_of_mem a hb))]

theorem join_quoted_shape (e : String) (es : List String) :
    ∃ B, (joinSep ", " ((e :: es).map (fun s => "\"" ++ s ++ "\""))).data
      = '"' :: (B ++ ['"']) := by
  induction es generalizing e with
  | nil => exact ⟨e.data, by rw [show joinSep ", " ([e].map (fun s => "\"" ++ s ++ "\""))
      = "\"" ++ e ++ "\"" from rfl, quoted_data]⟩
  | cons f rest ih =>
      obtain ⟨B', hB⟩ := ih f
      refine ⟨e.data ++ '"' :: ',' :: ' ' :: '"' :: B', ?_⟩
      show (("\"" ++ e ++ "\"") ++ ", " ++
          joinSep ", " ((f :: rest).map (fun s => "\"" ++ s ++ "\""))).data = _
      rw [strData_append, strData_append, quoted_data, hB]
      simp

theorem strMk_data (s : String) : (⟨s.data⟩ : String) = s := rfl

theorem parseListValue_eq (content : String) :
    parseListValue content
      = (if (trimChars isSpaceChar content.data).isEmpty then []
         else (splitOnChar ',' (trimChars isSpaceChar content.data)).filterMap fun item =>
           let it := trimChars (fun d => d = '"') (trimChars isSpaceChar item)
           if it.isEmpty then none else some (.str ⟨it⟩)) := rfl

theorem cleanElem_data_isEmpty (s : String) (h : cleanListElem s = true) :
    s.data.isEmpty = false := by
  cases hd : s.data with
  | nil => exact absurd hd (cleanElem_parts s h).1
  | cons a b => rfl

theorem parseListValue_join (es : List String) (hes : ∀ e ∈ es, cleanListElem e = true) :
    parseListValue (joinSep ", " (es.map (fun s => "\"" ++ s ++ "\""))) = es.map GoVal.str := by
  cases es with
  | nil => rfl
  | cons e rest =>
      have he : cleanListElem e = true := hes e (List.mem_cons_self e rest)
      have hrest : ∀ x ∈ rest, cleanListElem x = true :=
        fun x hx => hes x (List.mem_cons_of_mem e hx)
      obtain ⟨B, hB⟩ := join_quoted_shape e rest
      have hsplit := split_join_quoted e rest he hrest
      rw [parseListValue_eq, hB, trimSpace_quoted B]
      simp only [List.isEmpty_cons, Bool.false_eq_true, if_false]
      rw [← hB, hsplit]
      have hsome : ∀ item ∈ ('"' :: (e.data ++ ['"'])) ::
          rest.map (fun s => ' ' :: '"' :: (s.data ++ ['"'])),
          (fun item =>
            let it := trimChars (fun d => d = '"') (trimChars isSpaceChar item)
            if it.isEmpty then none else some (GoVal.str ⟨it⟩)) item
          = some ((fun item =>
              GoVal.str ⟨trimChars (fun d => d = '"') (trimChars isSpaceChar item)⟩) item) := by
        intro item hitem
        rcases List.mem_cons.mp hitem with rfl | hmem
        · simp only [trimSpace_quoted, trimQuotes_quoted e he]
          simp [cleanElem_data_isEmpty e he]
        · obtain ⟨s, hs, rfl⟩ := List.mem_map.mp hmem
          rw [show (' ' :: '"' :: (s.data ++ ['"'])) = ' ' :: '"' :: (s.data ++ ['"']) from rfl]
          simp only [trimSpace_space_quoted, trimQuotes_quoted s (hrest s hs)]
          simp [cleanElem_data_isEmpty s (hrest s hs)]
      rw [filterMap_eq_map_of_some _ _ _ hsome]
      simp only [List.map_cons, List.map_map]
      rw [trimSpace_quoted, trimQuotes_quoted e he, strMk_data]
      congr 1
      apply List.map_congr_left
      intro s hs
      show GoVal.str ⟨trimChars (fun d => d = '"')
        (trimChars isSpaceChar (' ' :: '"' :: (s.data ++ ['"'])))⟩ = GoVal.str s
      rw [trimSpace_space_quoted, trimQuotes_quoted s (hrest s hs), strMk_data]

theorem formatVariable_list_data (n : String) (es : List String) :
    (formatVariable ⟨n, .listv (es.map GoVal.str), "list"⟩).data
      = n.data ++ ' ' :: '=' :: ' ' :: '[' ::
        ((joinSep ", " (es.map (fun s => "\"" ++ s ++ "\""))).data ++ [']']) := by
  show (n ++ " = [" ++
      joinSep ", " ((es.map GoVal.str).map (fun x => "\"" ++ goFmtValue x ++ "\"")) ++ "]").data = _
  rw [show (es.map GoVal.str).map (fun x => "\"" ++ goFmtValue x ++ "\"")
      = es.map (fun s => "\"" ++ s ++ "\"") by rw [List.map_map]; rfl]
  simp [strData_append]

theorem identStr_head (n : String) (hn : isIdentStr n = true) :
    ∃ c0 nt, n.data = c0 :: nt ∧ isWordChar c0 = true ∧ ∀ x ∈ n.data, isWordChar x = true := by
  unfold isIdentStr at hn
  simp only [Bool.and_eq_true, List.all_eq_true, Bool.not_eq_true'] at hn
  obtain ⟨hne, hall⟩ := hn
  cases hd : n.data with
  | nil => rw [hd] at hne; exact absurd hne (by decide)
  | cons c0 nt =>
      exact ⟨c0, nt, rfl, hall c0 (by rw [hd]; exact List.mem_cons_self c0 nt),
        fun x hx => hall x (by rw [hd]; exact hx)⟩

theorem goTrimSpace_listline (n : String) (hn : isIdentStr n = true) (es : List String) :
    goTrimSpace (formatVariable ⟨n, .listv (es.map GoVal.str), "list"⟩)
      = formatVariable ⟨n, .listv (es.map GoVal.str), "list"⟩ := by
  obtain ⟨c0, nt, hd, hw, _⟩ := identStr_head n hn
  have hshape : (formatVariable ⟨n, .listv (es.map GoVal.str), "list"⟩).data
      = c0 :: ((nt ++ ' ' :: '=' :: ' ' :: '[' ::
          (joinSep ", " (es.map (fun s => "\"" ++ s ++ "\""))).data) ++ [']']) := by
    rw [formatVariable_list_data, hd]
    simp
  unfold goTrimSpace
  rw [hshape, trimChars_sandwich isSpaceChar c0 ']' _ (word_not_space c0 hw) (by decide),
    ← hshape]

theorem sliceBetween_listline (n : String) (hn : isIdentStr n = true) (es : List String) :
    sliceBetween '[' ']' (formatVariable ⟨n, .listv (es.map GoVal.str), "list"⟩)
      = joinSep ", " (es.map (fun s => "\"" ++ s ++ "\"")) := by
  obtain ⟨_, _, _, _, hall⟩ := identStr_head n hn
  unfold sliceBetween afterFirstChar
  rw [formatVariable_list_data]
  rw [show n.data ++ ' ' :: '=' :: ' ' :: '[' ::
      ((joinSep ", " (es.map (fun s => "\"" ++ s ++ "\""))).data ++ [']'])
    = (n.data ++ [' ', '=', ' ']) ++ '[' ::
      ((joinSep ", " (es.map (fun s => "\"" ++ s ++ "\""))).data ++ [']']) by simp]
  have hpre : ∀ x ∈ n.data ++ [' ', '=', ' '], (decide ¬(x = '[')) = true := by
    intro x hx
    rcases List.mem_append.mp hx with hx | hx
    · simp [word_ne_char x '[' (hall x hx) (by decide)]
    · simp only [List.mem_cons, List.mem_singleton, List.not_mem_nil, or_false] at hx
      rcases hx with rfl | rfl | rfl <;> decide
  rw [(takeWhile_append_cons (fun d => decide ¬(d = '[')) (n.data ++ [' ', '=', ' ']) '['
    ((joinSep ", " (es.map (fun s => "\"" ++ s ++ "\""))).data ++ [']']) hpre (by decide)).2]
  rw [show ('[' :: ((joinSep ", " (es.map (fun s => "\"" ++ s ++ "\""))).data ++ [']'])).drop 1
      = (joinSep ", " (es.map (fun s => "\"" ++ s ++ "\""))).data ++ [']'] from rfl]
  rw [beforeLastChar_append_single]

theorem startsWithLit_cons_ne (k : Char) (kr : List Char) (c : Char) (r : List Char)
    (h : c ≠ k) : startsWithLit (k :: kr) (c :: r) = false := by
  unfold startsWithLit
  simp [Ne.symm h]

theorem formatVariable_listline_ne_empty (n : String) (hn : isIdentStr n = true)
    (es : List String) :
    (formatVariable ⟨n, .listv (es.map GoVal.str), "list"⟩ = "") = False := by
  obtain ⟨c0, nt, hd, _, _⟩ := identStr_head n hn
  apply eq_false
  intro h
  have hdata := congrArg String.data h
  rw [formatVariable_list_data, hd] at hdata
  exact List.noConfusion hdata

theorem stepLine_clean_list (st : PState) (hL : st.inList = false) (hM : st.inMap = false)
    (n : String) (hn : isIdentStr n = true) (es : List String)
    (hes : ∀ e ∈ es, cleanListElem e = true) :
    stepLine st (formatVariable ⟨n, .listv (es.map GoVal.str), "list"⟩)
      = { st with vars := alSet st.vars n ⟨n, .listv (es.map GoVal.str), "list"⟩ } := by
  obtain ⟨sv, sil, scl, slb, sim, scm, smb⟩ := st
  dsimp only at hL hM
  subst hL
  subst hM
  obtain ⟨c0, nt, hd, hw, hall⟩ := identStr_head n hn
  have hcont : containsChar ']'
      (formatVariable ⟨n, .listv (es.map GoVal.str), "list"⟩).data = true := by
    rw [containsChar_iff, formatVariable_list_data]
    simp
  have hhash : startsWithLit "#".data
      (formatVariable ⟨n, .listv (es.map GoVal.str), "list"⟩).data = false := by
    rw [formatVariable_list_data, hd]
    exact startsWithLit_cons_ne '#' [] c0 _ (word_ne_char c0 '#' hw (by decide))
  have hslash : startsWithLit "//".data
      (formatVariable ⟨n, .listv (es.map GoVal.str), "list"⟩).data = false := by
    rw [formatVariable_list_data, hd]
    exact startsWithLit_cons_ne '/' ['/'] c0 _ (word_ne_char c0 '/' hw (by decide))
  unfold stepLine
  simp only [goTrimSpace_listline n hn es, formatVariable_listline_ne_empty n hn es,
    hhash, hslash, decide_False, Bool.false_or, Bool.or_false, Bool.false_eq_true, if_false]
  rw [formatVariable_list_data]
  rw [matchStringVar_listline n hn _, matchNumberVar_listline n hn _,
    matchBoolVar_listline n hn _, matchListStart_listline n hn _]
  rw [← formatVariable_list_data, hcont]
  simp only [if_true]
  rw [sliceBetween_listline n hn es, parseListValue_join es hes]
  rfl

theorem stepLine_skip (st : PState) (raw : String)
    (h : (decide (goTrimSpace raw = "") || startsWithLit "#".data (goTrimSpace raw).data
        || startsWithLit "//".data (goTrimSpace raw).data) = true) :
    stepLine st raw = st := by
  unfold stepLine
  simp only [h, if_true]

theorem foldl_append_data (l : List String) (s : String) :
    (l.foldl (fun a b => a ++ b) s).data = s.data ++ (l.map String.data).join := by
  induction l generalizing s with
  | nil => simp
  | cons a r ih =>
      simp only [List.foldl_cons, List.map_cons, List.join_cons, ih, strData_append]
      simp

theorem stringJoin_data (l : List String) :
    (String.join l).data = (l.map String.data).join := by
  show (l.foldl (fun a b => a ++ b) "").data = _
  rw [foldl_append_data]
  rfl

theorem split_join_lines (ls : List (List Char)) (h : ∀ l ∈ ls, '\n' ∉ l) :
    splitOnChar '\n' ((ls.map (fun l => l ++ ['\n'])).join) = ls ++ [[]] := by
  induction ls with
  | nil => rfl
  | cons a r ih =>
      simp only [List.map_cons, List.join_cons, List.append_assoc, List.singleton_append]
      rw [splitOnChar_append_sep '\n' a _
        (fun x hx hc => h a (List.mem_cons_self a r) (hc ▸ hx))]
      rw [ih (fun l hl => h l (List.mem_cons_of_mem a hl))]
      rfl

theorem cleanVals_shape : ∀ (xs : List GoVal),
    (xs.all fun x => match x with | GoVal.str s => cleanListElem s | _ => false) = true →
    ∃ es : List String, xs = es.map GoVal.str ∧ ∀ e ∈ es, cleanListElem e = true := by
  intro xs
  induction xs with
  | nil => exact fun _ => ⟨[], rfl, by simp⟩
  | cons x r ih =>
      intro h
      simp only [List.all_cons, Bool.and_eq_true] at h
      obtain ⟨hx, hr⟩ := h
      obtain ⟨es, he1, he2⟩ := ih hr
      cases x with
      | str s =>
          refine ⟨s :: es, by simp [he1], ?_⟩
          intro e hee
          rcases List.mem_cons.mp hee with rfl | hee
          · exact hx
          · exact he2 e hee
      | numv f => exact absurd hx (by simp)
      | intv i => exact absurd hx (by simp)
      | boolv b => exact absurd hx (by simp)
      | listv l => exact absurd hx (by simp)
      | mapv m => exact absurd hx (by simp)

theorem clean_entry_shape (nm : String) (w : TfVar) (h : cleanListEntry (nm, w) = true) :
    isIdentStr nm = true ∧ ∃ es : List String, w = ⟨nm, .listv (es.map GoVal.str), "list"⟩ ∧
      ∀ e ∈ es, cleanListElem e = true := by
  unfold cleanListEntry at h
  simp only [Bool.and_eq_true, decide_eq_true_eq] at h
  obtain ⟨⟨⟨hid, hname⟩, hty⟩, hval⟩ := h
  refine ⟨hid, ?_⟩
  obtain ⟨wn, wv, wty⟩ := w
  dsimp only at hname hty hval ⊢
  subst hname
  subst hty
  cases wv with
  | listv xs =>
      obtain ⟨es, he1, he2⟩ := cleanVals_shape xs hval
      refine ⟨es, ?_, he2⟩
      rw [← he1]
  | str s => exact absurd hval (by simp)
  | numv f => exact absurd hval (by simp)
  | intv i => exact absurd hval (by simp)
  | boolv b => exact absurd hval (by simp)
  | mapv m => exact absurd hval (by simp)

theorem join_quoted_no_nl (es : List String) (hes : ∀ e ∈ es, cleanListElem e = true) :
    '\n' ∉ (joinSep ", " (es.map (fun s => "\"" ++ s ++ "\""))).data := by
  induction es with
  | nil => simp [joinSep]
  | cons e rest ih =>
      have he := hes e (List.mem_cons_self e rest)
      have hrest : ∀ x ∈ rest, cleanListElem x = true :=
        fun x hx => hes x (List.mem_cons_of_mem e hx)
      cases rest with
      | nil =>
          rw [show joinSep ", " ([e].map (fun s => "\"" ++ s ++ "\""))
            = "\"" ++ e ++ "\"" from rfl, quoted_data]
          intro hc
          simp only [List.mem_cons, List.mem_append, List.mem_singleton] at hc
          rcases hc with hc | hc | hc
          · exact absurd hc (by decide)
          · exact ((cleanElem_parts e he).2 _ hc).2.2 rfl
          · exact absurd hc (by decide)
      | cons f rest2 =>
          have ihr := ih hrest
          show '\n' ∉ (("\"" ++ e ++ "\"") ++ ", " ++
            joinSep ", " ((f :: rest2).map (fun s => "\"" ++ s ++ "\""))).data
          rw [strData_append, strData_append, quoted_data]
          intro hc
          simp only [List.mem_append, List.mem_cons, List.mem_singleton] at hc
          rcases hc with ((hc | hc) | hc) | hc
          · exact absurd hc (by decide)
          · rcases hc with hc | hc
            · exact ((cleanElem_parts e he).2 _ hc).2.2 rfl
            · exact absurd hc (by decide)
          · exact absurd hc (by decide)
          · exact ihr hc

theorem formatVariable_list_no_nl (n : String) (hn : isIdentStr n = true) (es : List String)
    (hes : ∀ e ∈ es, cleanListElem e = true) :
    '\n' ∉ (formatVariable ⟨n, .listv (es.map GoVal.str), "list"⟩).data := by
  obtain ⟨_, _, _, _, hall⟩ := identStr_head n hn
  rw [formatVariable_list_data]
  intro hc
  simp only [List.mem_append, List.mem_cons, List.mem_singleton, List.not_mem_nil,
    or_false] at hc
  rcases hc with hc | hc | hc | hc | hc | hc | hc
  · exact absurd (hall _ hc) (by decide)
  · exact absurd hc (by decide)
  · exact absurd hc (by decide)
  · exact absurd hc (by decide)
  · exact absurd hc (by decide)
  · exact join_quoted_no_nl es hes hc
  · exact absurd hc (by decide)

theorem alGet_foldl_names_not_mem (F : String → TfVar) :
    ∀ (ns : List String) (m : List (String × TfVar)) (x : String), x ∉ ns →
      alGet (ns.foldl (fun m nm => alSet m nm (F nm)) m) x = alGet m x := by
  intro ns
  induction ns with
  | nil => intro m x _; rfl
  | cons nm r ih =>
      intro m x hx
      simp only [List.foldl_cons]
      rw [ih _ x (fun hc => hx (List.mem_cons_of_mem nm hc)),
        alGet_alSet_ne m nm x (F nm) (fun hc => hx (hc ▸ List.mem_cons_self nm r))]

theorem alGet_foldl_names_mem (F : String → TfVar) :
    ∀ (ns : List String) (m : List (String × TfVar)) (x : String), ns.Nodup → x ∈ ns →
      alGet (ns.foldl (fun m nm => alSet m nm (F nm)) m) x = some (F x) := by
  intro ns
  induction ns with
  | nil => intro m x _ hx; simp at hx
  | cons nm r ih =>
      intro m x hnd hx
      simp only [List.nodup_cons] at hnd
      simp only [List.foldl_cons]
      rcases List.mem_cons.mp hx with rfl | hx2
      · rw [alGet_foldl_names_not_mem F r _ x hnd.1]
        exact alGet_alSet_self m x (F x)
      · exact ih _ x hnd.2 hx2

theorem foldl_stepLine_names (F : String → TfVar) :
    ∀ (ns : List String),
      (∀ nm ∈ ns, ∃ es : List String, F nm = ⟨nm, .listv (es.map GoVal.str), "list"⟩ ∧
          isIdentStr nm = true ∧ ∀ e ∈ es, cleanListElem e = true) →
      ∀ (st : PState), st.inList = false → st.inMap = false →
        List.foldl stepLine st (ns.map (fun nm => formatVariable (F nm)))
          = { st with vars := ns.foldl (fun m nm => alSet m nm (F nm)) st.vars } := by
  intro ns
  induction ns with
  | nil => intro _ st _ _; rfl
  | cons nm r ih =>
      intro hF st hL hM
      obtain ⟨es, hFeq, hid, hcl⟩ := hF nm (List.mem_cons_self nm r)
      simp only [List.map_cons, List.foldl_cons]
      rw [hFeq, stepLine_clean_list st hL hM nm hid es hcl]
      rw [ih (fun q hq => hF q (List.mem_cons_of_mem nm hq))
        { st with vars := alSet st.vars nm ⟨nm, .listv (es.map GoVal.str), "list"⟩ } hL hM]

/-- C8 amended: serializing a compilation set of list-typed variables whose
elements are nonempty strings free of commas, quotes and newlines (and
whose names are identifiers), then reparsing the serialized output, yields
every variable back with an identical list: same elements, same order,
same length. -/
theorem c8_list_roundtrip_amended (vars : List (String × TfVar))
    (hnd : nodupKeys vars)
    (hclean : ∀ e ∈ vars, cleanListEntry e = true) :
    ∀ x v, alGet vars x = some v →
      alGet (parseTfvars (generateCompiledTfvars vars)) x = some v := by
  intro x v hget
  have hF : ∀ nm ∈ exchSort (alKeys vars),
      ∃ es : List String,
        (alGet vars nm).getD ⟨nm, .str "", ""⟩ = ⟨nm, .listv (es.map GoVal.str), "list"⟩ ∧
        isIdentStr nm = true ∧ ∀ e ∈ es, cleanListElem e = true := by
    intro nm hnm
    have hk : nm ∈ alKeys vars := (exchSort_perm (alKeys vars)).mem_iff.mpr hnm
    obtain ⟨w, hw⟩ := Option.isSome_iff_exists.mp ((alGet_isSome_iff vars nm).mpr hk)
    obtain ⟨hid, es, hes1, hes2⟩ := clean_entry_shape nm w (hclean (nm, w) (alGet_mem hw))
    refine ⟨es, ?_, hid, hes2⟩
    rw [hw]
    exact hes1
  have hgen : generateCompiledTfvars vars
      = tfvarsHeaderStr ++ String.join ((exchSort (alKeys vars)).map
          (fun nm => formatVariable ((alGet vars nm).getD ⟨nm, .str "", ""⟩) ++ "\n")) := by
    unfold generateCompiledTfvars
    congr 1
    congr 1
    apply List.map_congr_left
    intro nm hnm
    have hk : nm ∈ alKeys vars := (exchSort_perm (alKeys vars)).mem_iff.mpr hnm
    obtain ⟨w, hw⟩ := Option.isSome_iff_exists.mp ((alGet_isSome_iff vars nm).mpr hk)
    rw [hw]
    rfl
  have hnl : ∀ l ∈ (exchSort (alKeys vars)).map
      (fun nm => (formatVariable ((alGet vars nm).getD ⟨nm, .str "", ""⟩)).data), '\n' ∉ l := by
    intro l hl
    obtain ⟨nm, hnm, rfl⟩ := List.mem_map.mp hl
    obtain ⟨es, hFeq, hid, hcl⟩ := hF nm hnm
    rw [hFeq]
    exact formatVariable_list_no_nl nm hid es hcl
  have hmapeq : ((exchSort (alKeys vars)).map
        (fun nm => formatVariable ((alGet vars nm).getD ⟨nm, .str "", ""⟩) ++ "\n")).map
          String.data
      = (exchSort (alKeys vars)).map (fun nm =>
          (formatVariable ((alGet vars nm).getD ⟨nm, .str "", ""⟩)).data ++ ['\n']) := by
    rw [List.map_map]
    apply List.map_congr_left
    intro nm _
    show (formatVariable ((alGet vars nm).getD ⟨nm, .str "", ""⟩) ++ "\n").data = _
    rw [strData_append]
  have hdata : (generateCompiledTfvars vars).data
      = "# Compiled variables from multiple tfvars files".data ++ '\n' ::
        ("# Generated by tf-go variable compiler".data ++ '\n' :: '\n' ::
          (((exchSort (alKeys vars)).map (fun nm =>
            (formatVariable ((alGet vars nm).getD ⟨nm, .str "", ""⟩)).data ++ ['\n'])).join)) := by
    rw [hgen, strData_append, stringJoin_data, hmapeq]
    rw [(by decide : tfvarsHeaderStr.data
      = "# Compiled variables from multiple tfvars files".data ++ '\n' ::
        ("# Generated by tf-go variable compiler".data ++ ['\n', '\n']))]
    simp
  have hsplit : splitOnChar '\n' (generateCompiledTfvars vars).data
      = "# Compiled variables from multiple tfvars files".data ::
        "# Generated by tf-go variable compiler".data :: ([] : List Char) ::
        (((exchSort (alKeys vars)).map (fun nm =>
           (formatVariable ((alGet vars nm).getD ⟨nm, .str "", ""⟩)).data)) ++ [[]]) := by
    rw [hdata]
    rw [splitOnChar_append_sep '\n' _ _ (by decide)]
    rw [splitOnChar_append_sep '\n' _ _ (by decide)]
    rw [show splitOnChar '\n' ('\n' ::
        (((exchSort (alKeys vars)).map (fun nm =>
          (formatVariable ((alGet vars nm).getD ⟨nm, .str "", ""⟩)).data ++ ['\n'])).join))
      = ([] : List Char) :: splitOnChar '\n'
          (((exchSort (alKeys vars)).map (fun nm =>
            (formatVariable ((alGet vars nm).getD ⟨nm, .str "", ""⟩)).data ++ ['\n'])).join) by
        rw [splitOnChar_cons]
        simp]
    rw [show ((exchSort (alKeys vars)).map (fun nm =>
        (formatVariable ((alGet vars nm).getD ⟨nm, .str "", ""⟩)).data ++ ['\n']))
      = (((exchSort (alKeys vars)).map (fun nm =>
          (formatVariable ((alGet vars nm).getD ⟨nm, .str "", ""⟩)).data)).map
            (fun l => l ++ ['\n'])) by rw [List.map_map]; rfl]
    rw [split_join_lines _ hnl]
  have hlines : fileLines (generateCompiledTfvars vars)
      = "# Compiled variables from multiple tfvars files" ::
        "# Generated by tf-go variable compiler" :: "" ::
        (((exchSort (alKeys vars)).map (fun nm =>
           formatVariable ((alGet vars nm).getD ⟨nm, .str "", ""⟩))) ++ [""]) := by
    unfold fileLines
    rw [hsplit]
    simp only [List.map_cons, List.map_append, List.map_map]
    rfl
  show alGet ((fileLines (generateCompiledTfvars vars)).foldl stepLine initPState).vars x
      = some v
  rw [hlines]
  simp only [List.foldl_cons, List.foldl_append]
  rw [stepLine_skip initPState _ (by decide)]
  rw [stepLine_skip initPState _ (by decide)]
  rw [stepLine_skip initPState _ (by decide)]
  rw [foldl_stepLine_names (fun nm => (alGet vars nm).getD ⟨nm, .str "", ""⟩)
    (exchSort (alKeys vars)) hF initPState rfl rfl]
  rw [stepLine_skip _ _ (by decide)]
  have hx : x ∈ exchSort (alKeys vars) :=
    (exchSort_perm _).mem_iff.mp ((alGet_isSome_iff vars x).mp (by rw [hget]; rfl))
  have hnd' : (exchSort (alKeys vars)).Nodup :=
    ((exchSort_perm (alKeys vars)).nodup_iff).mp hnd
  show alGet ((exchSort (alKeys vars)).foldl
      (fun m nm => alSet m nm ((alGet vars nm).getD ⟨nm, .str "", ""⟩)) []) x = some v
  rw [alGet_foldl_names_mem _ _ _ x hnd' hx]
  rw [hget]
  rfl

/-- Counterexample to C8 as stated: the empty string has no embedded
commas or quotes, yet a list element `""` does not survive the round
trip — `formatVariable` renders it as `""`, and `parseListValue` trims
the quotes and drops the now-empty element, so the list comes back
shorter. -/
theorem c8_list_roundtrip_cex :
    ¬ (∀ vars : List (String × TfVar), nodupKeys vars →
        (∀ e ∈ vars, noCommaQuoteEntry e = true) →
        ∀ x v, alGet vars x = some v →
          alGet (parseTfvars (generateCompiledTfvars vars)) x = some v) := by
  intro h
  have hc := h [("a", ⟨"a", GoVal.listv [GoVal.str ""], "list"⟩)]
      (by unfold nodupKeys; decide)
      (by intro e he; simp at he; subst he; rfl)
      "a" ⟨"a", GoVal.listv [GoVal.str ""], "list"⟩ rfl
  have hval : alGet (parseTfvars (generateCompiledTfvars
      [("a", ⟨"a", GoVal.listv [GoVal.str ""], "list"⟩)])) "a" =
      some ⟨"a", GoVal.listv [], "list"⟩ := rfl
  rw [hval] at hc
  simp at hc

/-- Witness for the amended C8 theorem at the spec's own example:
`allowed_cidrs = ["10.0.0.0/16", "192.168.0.0/24"]` round-trips to the
identical two-element list. -/
theorem c8_list_roundtrip_amended_witness :
    alGet (parseTfvars (generateCompiledTfvars
        [("allowed_cidrs", ⟨"allowed_cidrs",
          GoVal.listv [GoVal.str "10.0.0.0/16", GoVal.str "192.168.0.0/24"], "list"⟩)]))
      "allowed_cidrs" =
      some ⟨"allowed_cidrs",
        GoVal.listv [GoVal.str "10.0.0.0/16", GoVal.str "192.168.0.0/24"], "list"⟩ :=
  c8_list_roundtrip_amended
    [("allowed_cidrs", ⟨"allowed_cidrs",
      GoVal.listv [GoVal.str "10.0.0.0/16", GoVal.str "192.168.0.0/24"], "list"⟩)]
    (by unfold nodupKeys; decide)
    (by intro e he; simp at he; subst he; rfl)
    "allowed_cidrs"
    ⟨"allowed_cidrs", GoVal.listv [GoVal.str "10.0.0.0/16", GoVal.str "192.168.0.0/24"], "list"⟩
    rfl
